import Mathlib

/-!
Verification of the lattigo generic serialization framework (structs.Matrix),
the rlwe.SecretKey type and the rgsw.Ciphertext type, against the natural
language specification.

The embedding translates the Go source into Lean:

* byte streams are lists of naturals (each < 256 for meaningful bytes);
* the `buffer.Writer` sink is modelled by `Sink` (a byte accumulator with a
  remaining write capacity after which writes fail, modelling sink failures)
  wrapped by `BufWriter` (the `bufio.Writer` decorator with a buffer capacity);
* the `buffer.Reader` source is modelled by the remaining byte list; short
  reads model source exhaustion;
* Go errors are the inductive `IOErr`; the `fmt.Errorf("...: %w", err)`
  wrappings of the source become constructors carrying the wrapped error;
* Go panics (unsupported element type, out-of-range index) surface as `none`
  in an `Option` result;
* the element type `T` of `structs.Matrix[T]` is accompanied by `ElemOps T`,
  the runtime type information the Go code dispatches on: whether `T` is one
  of the built-in primitive kinds, the optional `CopyNewer` / `Equatable`
  capability implementations, and the element codec.
-/

namespace LattigoSpec

/-! ## Little-endian fixed-width byte encoding of unsigned integers -/

/-- Little-endian base-256 digits of `x`, `k` bytes wide (truncating). -/
def bytesLE : Nat → Nat → List Nat
  | 0, _ => []
  | k + 1, x => x % 256 :: bytesLE k (x / 256)

/-- Value of a little-endian base-256 digit list. -/
def ofBytesLE : List Nat → Nat
  | [] => 0
  | b :: bs => b + 256 * ofBytesLE bs

/-- Fixed 8-byte encoding of a 64-bit unsigned integer (the length/header
codec `buffer.WriteAsUint64`). -/
def u64Bytes (x : Nat) : List Nat := bytesLE 8 x

theorem bytesLE_length (k x : Nat) : (bytesLE k x).length = k := by
  induction k generalizing x with
  | zero => rfl
  | succ k ih => simp [bytesLE, ih]

theorem u64Bytes_length (x : Nat) : (u64Bytes x).length = 8 :=
  bytesLE_length 8 x

theorem ofBytesLE_bytesLE (k x : Nat) : ofBytesLE (bytesLE k x) = x % 256 ^ k := by
  induction k generalizing x with
  | zero => simp [bytesLE, ofBytesLE, Nat.mod_one]
  | succ k ih =>
    have h256 : (256 : Nat) ^ (k + 1) = 256 * 256 ^ k := by ring
    rw [bytesLE, ofBytesLE, ih, h256]
    have hdvd : (256 : Nat) ∣ 256 * 256 ^ k := Dvd.intro _ rfl
    have h1 : x / 256 % 256 ^ k = x % (256 * 256 ^ k) / 256 :=
      (Nat.mod_mul_right_div_self x 256 (256 ^ k)).symm
    have h2 : x % (256 * 256 ^ k) % 256 = x % 256 := Nat.mod_mod_of_dvd x hdvd
    rw [h1, ← h2]
    omega

theorem ofBytesLE_u64Bytes {x : Nat} (hx : x < 2 ^ 64) :
    ofBytesLE (u64Bytes x) = x := by
  have h : (256 : Nat) ^ 8 = 2 ^ 64 := by norm_num
  rw [u64Bytes, ofBytesLE_bytesLE, h, Nat.mod_eq_of_lt hx]

/-! ## Readers: a `buffer.Reader` source is the list of bytes not yet read -/

/-- Remaining input of a `buffer.Reader`. -/
abbrev Reader := List Nat

/-- Embedding of `buffer.ReadAsUint64`: consume 8 bytes and decode them, or
fail with a short read. -/
def readAsUint64 (r : Reader) : Option (Nat × Reader) :=
  if 8 ≤ r.length then some (ofBytesLE (r.take 8), r.drop 8) else none

theorem readAsUint64_append {x : Nat} (hx : x < 2 ^ 64) (rest : Reader) :
    readAsUint64 (u64Bytes x ++ rest) = some (x, rest) := by
  have hlen : (u64Bytes x).length = 8 := u64Bytes_length x
  have htake : (u64Bytes x ++ rest).take 8 = u64Bytes x := by
    rw [← hlen]; exact List.take_left _ _
  have hdrop : (u64Bytes x ++ rest).drop 8 = rest := by
    rw [← hlen]; exact List.drop_left _ _
  have hge : 8 ≤ (u64Bytes x ++ rest).length := by
    rw [List.length_append, hlen]; omega
  simp only [readAsUint64]
  rw [if_pos hge, htake, hdrop, ofBytesLE_u64Bytes hx]

/-! ## Errors

Each `fmt.Errorf` wrapping present in the Go source becomes a constructor
carrying the wrapped error; the leaf constructors are the underlying I/O
failures (a sink write failure, a short read, a structured element whose own
codec fails). The constructors carry exactly the information the Go format
strings record: note that no constructor carries a row index. -/

inductive IOErr where
  /-- Underlying sink refused the write (closed channel, quota exceeded). -/
  | sinkFail : IOErr
  /-- Source exhausted before the requested byte count was read. -/
  | shortRead : IOErr
  /-- A structured element's own write codec failed. -/
  | elemFail : IOErr
  /-- Wrapping `fmt.Errorf("buffer.WriteAsUint64[int]: %w", err)`. -/
  | writeAsUint64 : IOErr → IOErr
  /-- Wrapping `fmt.Errorf("buffer.ReadAsUint64[int]: %w", err)`. -/
  | readAsUint64 : IOErr → IOErr
  /-- Wrapping `fmt.Errorf("structs.Vector[%T].WriteTo: %w", t, err)`. -/
  | vectorWriteTo : IOErr → IOErr
  /-- Wrapping `fmt.Errorf("structs.Vector[%T].ReadFrom: %w", t, err)`. -/
  | vectorReadFrom : IOErr → IOErr
deriving DecidableEq

/-! ## Writers: the underlying sink and the `bufio.Writer` decorator -/

/-- An underlying `io.Writer` sink: the bytes it has accepted so far and the
number of further bytes it will accept before failing. -/
structure Sink where
  out : List Nat
  cap : Nat
deriving DecidableEq

/-- One write call on the underlying sink. -/
def Sink.write (s : Sink) (bs : List Nat) : Option Sink :=
  if bs.length ≤ s.cap then some ⟨s.out ++ bs, s.cap - bs.length⟩ else none

/-- The `bufio.Writer` decorator (also standing for `buffer.Buffer` when
`bufCap = 0`): pending buffered bytes, the buffer capacity and the wrapped
sink. -/
structure BufWriter where
  buf : List Nat
  bufCap : Nat
  sink : Sink
deriving DecidableEq

/-- All bytes accepted by the buffered writer: delivered plus pending. -/
def BufWriter.acc (w : BufWriter) : List Nat := w.sink.out ++ w.buf

/-- Flush pending bytes to the underlying sink. On failure the pending bytes
are kept (as `bufio.Writer` does). -/
def BufWriter.flush (w : BufWriter) : BufWriter × Option IOErr :=
  match w.sink.write w.buf with
  | some s => (⟨[], w.bufCap, s⟩, none)
  | none => (w, some IOErr.sinkFail)

/-- One chunk write on the buffered writer: append to the buffer while it
fits, otherwise flush first; a chunk larger than the whole buffer is written
directly to the sink after the flush. -/
def BufWriter.write (w : BufWriter) (bs : List Nat) : BufWriter × Option IOErr :=
  if w.buf.length + bs.length ≤ w.bufCap then
    (⟨w.buf ++ bs, w.bufCap, w.sink⟩, none)
  else
    match w.sink.write w.buf with
    | none => (w, some IOErr.sinkFail)
    | some s =>
      if bs.length ≤ w.bufCap then (⟨bs, w.bufCap, s⟩, none)
      else
        match s.write bs with
        | some s2 => (⟨[], w.bufCap, s2⟩, none)
        | none => (⟨[], w.bufCap, s⟩, some IOErr.sinkFail)

/-! ## Element operations

`structs.Matrix[T]` dispatches at runtime on the element type `T`: on whether
it is one of the built-in primitive kinds (uint, uint64, ..., float32) and on
whether it implements the `CopyNewer` / `Equatable` capability interfaces.
`ElemOps T` packages this runtime type information together with the element
codec used by the (spec-modelled) `Vector[T]`. -/

structure ElemOps (T : Type) where
  /-- Whether `T` is one of the built-in primitive kinds. -/
  isPrim : Bool
  /-- Built-in value equality, used for primitive kinds. -/
  primEq : T → T → Bool
  /-- The `CopyNewer[T]` implementation when `T` provides one. -/
  copyNewer : Option (T → T)
  /-- The `Equatable[T]` implementation when `T` provides one. -/
  equatable : Option (T → T → Bool)
  /-- The element's `BinarySize`. -/
  size : T → Nat
  /-- The element's write codec; `none` models a failing `io.WriterTo`. -/
  write : T → Option (List Nat)
  /-- The element's read codec; `none` models a failing read (short read). -/
  read : Reader → Option (T × Reader)

/-- Effective equality function the container uses for `T`: built-in value
equality for primitive kinds, the `Equatable` implementation otherwise;
`none` when `T` supports neither (the panic branch). -/
def elemEqF {T : Type} (ops : ElemOps T) : Option (T → T → Bool) :=
  if ops.isPrim then some ops.primEq else ops.equatable

/-- Effective element copy: value copy (identity) for primitive kinds, the
`CopyNewer` implementation otherwise; `none` is the panic branch. -/
def elemCopyF {T : Type} (ops : ElemOps T) : Option (T → T) :=
  if ops.isPrim then some (fun t => t) else ops.copyNewer

/-! ## Vector

`structs.Vector[T]` is not part of the sources under verification; the
definitions of this section are modelled from the spec.

Modelled from the spec: `Vector<T>.WriteTo` writes an 8-byte length prefix
(element count) then each element in order; `ReadFrom` reads the prefix then
each element; `BinarySize` is 8 plus the element sizes; `Equal` is structural
elementwise equality. Missing source: `utils/structs/vector.go`. -/

/-- A `structs.Vector[T]` value. -/
abbrev Vector (T : Type) : Type := List T

/-- A `structs.Matrix[T]` value (`type Matrix[T any] [][]T`). -/
abbrev Matrix (T : Type) : Type := List (List T)

/-- Modelled from the spec: `Vector[T].BinarySize`, the 8-byte count header
plus each element's size. -/
def Vector.BinarySize {T : Type} (ops : ElemOps T) (v : Vector T) : Nat :=
  8 + (v.map ops.size).sum

/-- Byte encoding of the elements of a vector, in order; `none` when some
element's write codec fails. -/
def elemsEncode {T : Type} (ops : ElemOps T) : List T → Option (List Nat)
  | [] => some []
  | t :: ts =>
    match ops.write t, elemsEncode ops ts with
    | some bs, some rest => some (bs ++ rest)
    | _, _ => none

/-- Modelled from the spec: the byte sequence `Vector[T].WriteTo` produces,
an 8-byte length prefix then the encoded elements. -/
def vecEncode {T : Type} (ops : ElemOps T) (v : Vector T) : Option (List Nat) :=
  match elemsEncode ops v with
  | some bs => some (u64Bytes v.length ++ bs)
  | none => none

/-- Write the elements of a vector to a buffered writer, returning the byte
count the writes reported, the final writer and the error if any. -/
def elemsWrite {T : Type} (ops : ElemOps T) :
    List T → BufWriter → Nat × BufWriter × Option IOErr
  | [], w => (0, w, none)
  | t :: ts, w =>
    match ops.write t with
    | none => (0, w, some IOErr.elemFail)
    | some bs =>
      match w.write bs with
      | (w1, some e) => (0, w1, some e)
      | (w1, none) =>
        match elemsWrite ops ts w1 with
        | (n2, w2, e2) => (bs.length + n2, w2, e2)

/-- Modelled from the spec: `Vector[T].WriteTo` on a `buffer.Writer`: the
length prefix via the u64 codec, then each element in order. -/
def Vector.WriteTo {T : Type} (ops : ElemOps T) (v : Vector T) (w : BufWriter) :
    Nat × BufWriter × Option IOErr :=
  match w.write (u64Bytes v.length) with
  | (w1, some e) => (0, w1, some e)
  | (w1, none) =>
    match elemsWrite ops v w1 with
    | (n2, w2, e2) => (8 + n2, w2, e2)

/-- Read `count` elements from a reader; returns bytes consumed, the elements
read, the rest of the source and the error if any. -/
def elemsRead {T : Type} (ops : ElemOps T) :
    Nat → Reader → Nat × List T × Reader × Option IOErr
  | 0, r => (0, [], r, none)
  | k + 1, r =>
    match ops.read r with
    | none => (0, [], r, some IOErr.shortRead)
    | some (t, r1) =>
      match elemsRead ops k r1 with
      | (n2, ts, r2, e2) => (r.length - r1.length + n2, t :: ts, r2, e2)

/-- Modelled from the spec: `Vector[T].ReadFrom`: read the count header, then
that many elements. -/
def Vector.ReadFrom {T : Type} (ops : ElemOps T) (r : Reader) :
    Nat × List T × Reader × Option IOErr :=
  match readAsUint64 r with
  | none => (0, [], r, some IOErr.shortRead)
  | some (count, r1) =>
    match elemsRead ops count r1 with
    | (n2, ts, r2, e2) => (8 + n2, ts, r2, e2)

/-- Modelled from the spec: `Vector[T].Equal`, structural elementwise
equality (including the element counts). -/
def vecEqual {T : Type} (eqf : T → T → Bool) : List T → List T → Bool
  | [], [] => true
  | a :: as_, b :: bs => eqf a b && vecEqual eqf as_ bs
  | _, _ => false

/-! ## Matrix

Embeddings of the methods of `structs.Matrix[T]` from the source
(`utils/structs/matrix.go`). -/

/-- Embedding of `Matrix[T].BinarySize`: 8 bytes for the row-count header
plus each row's `Vector.BinarySize`. -/
def Matrix.BinarySize {T : Type} (ops : ElemOps T) (m : Matrix T) : Nat :=
  8 + (m.map (Vector.BinarySize ops)).sum

/-- Byte encoding of the rows of a matrix, in order. -/
def rowsEncode {T : Type} (ops : ElemOps T) : Matrix T → Option (List Nat)
  | [] => some []
  | v :: vs =>
    match vecEncode ops v, rowsEncode ops vs with
    | some bs, some rest => some (bs ++ rest)
    | _, _ => none

/-- The byte sequence a successful `Matrix[T].WriteTo` produces: the row-count
header then each row's vector encoding. -/
def matEncode {T : Type} (ops : ElemOps T) (m : Matrix T) : Option (List Nat) :=
  match rowsEncode ops m with
  | some bs => some (u64Bytes m.length ++ bs)
  | none => none

/-- The row loop of `Matrix[T].WriteTo`: write each row via `Vector.WriteTo`,
wrapping a row failure as `structs.Vector[T].WriteTo: %w`. -/
def rowsWrite {T : Type} (ops : ElemOps T) :
    Matrix T → BufWriter → Nat × BufWriter × Option IOErr
  | [], w => (0, w, none)
  | v :: vs, w =>
    match Vector.WriteTo ops v w with
    | (inc, w1, some e) => (inc, w1, some (IOErr.vectorWriteTo e))
    | (inc, w1, none) =>
      match rowsWrite ops vs w1 with
      | (n2, w2, e2) => (inc + n2, w2, e2)

/-- Embedding of the `buffer.Writer` branch of `Matrix[T].WriteTo`: write the
row count via `buffer.WriteAsUint64` (wrapping its failure), write each row,
then flush. -/
def Matrix.WriteTo {T : Type} (ops : ElemOps T) (m : Matrix T) (w : BufWriter) :
    Nat × BufWriter × Option IOErr :=
  match w.write (u64Bytes m.length) with
  | (w1, some e) => (0, w1, some (IOErr.writeAsUint64 e))
  | (w1, none) =>
    match rowsWrite ops m w1 with
    | (n, w2, some e) => (8 + n, w2, some e)
    | (n, w2, none) =>
      match w2.flush with
      | (w3, e3) => (8 + n, w3, e3)

/-- Embedding of the default branch of `Matrix[T].WriteTo`: a sink that is
not a `buffer.Writer` is wrapped once in a `bufio.Writer` (here: a fresh
`BufWriter` with empty buffer) and the call recurses into the
`buffer.Writer` branch. -/
def Matrix.WriteToRaw {T : Type} (ops : ElemOps T) (m : Matrix T) (s : Sink)
    (bufCap : Nat) : Nat × BufWriter × Option IOErr :=
  Matrix.WriteTo ops m ⟨[], bufCap, s⟩

/-- The row loop of `Matrix[T].ReadFrom`: read `k` rows, wrapping a row
failure as `structs.Vector[T].ReadFrom: %w`; rows read before the failure
stay in the receiver. -/
def rowsRead {T : Type} (ops : ElemOps T) :
    Nat → Reader → Nat × Matrix T × Reader × Option IOErr
  | 0, r => (0, [], r, none)
  | k + 1, r =>
    match Vector.ReadFrom ops r with
    | (inc, _, r1, some e) => (inc, [], r1, some (IOErr.vectorReadFrom e))
    | (inc, v, r1, none) =>
      match rowsRead ops k r1 with
      | (n2, vs, r2, e2) => (inc + n2, v :: vs, r2, e2)

/-- Embedding of the `buffer.Reader` branch of `Matrix[T].ReadFrom`: read the
row count via `buffer.ReadAsUint64` (wrapping its failure), resize the
receiver, then read each row. -/
def Matrix.ReadFrom {T : Type} (ops : ElemOps T) (r : Reader) :
    Nat × Matrix T × Reader × Option IOErr :=
  match readAsUint64 r with
  | none => (0, [], r, some (IOErr.readAsUint64 IOErr.shortRead))
  | some (size, r1) =>
    match rowsRead ops size r1 with
    | (n2, m2, r2, e2) => (8 + n2, m2, r2, e2)

/-- Embedding of `Matrix[T].MarshalBinary`: write into a fresh
`buffer.NewBufferSize(m.BinarySize())` buffer (an unbuffered writer that
accepts exactly the allocated byte count) and return its bytes. -/
def Matrix.MarshalBinary {T : Type} (ops : ElemOps T) (m : Matrix T) :
    List Nat × Option IOErr :=
  match Matrix.WriteTo ops m ⟨[], 0, ⟨[], Matrix.BinarySize ops m⟩⟩ with
  | (_, w, e) => (w.acc, e)

/-- Embedding of `Matrix[T].UnmarshalBinary`: `ReadFrom` on a
`buffer.NewBuffer(p)` source; returns the decoded receiver and the error. -/
def Matrix.UnmarshalBinary {T : Type} (ops : ElemOps T) (p : List Nat) :
    Matrix T × Option IOErr :=
  match Matrix.ReadFrom ops p with
  | (_, m, _, e) => (m, e)

/-- Embedding of `Matrix[T].CopyNew`: primitive kinds are copied by value
row by row; otherwise the element's `CopyNewer` is required, with a panic
(`none`) when `T` does not implement it — the type dispatch happens before
the row loop, so the panic fires even on an empty matrix. -/
def Matrix.CopyNew {T : Type} (ops : ElemOps T) (m : Matrix T) :
    Option (Matrix T) :=
  match elemCopyF ops with
  | none => none
  | some f => some (m.map (fun row => row.map f))

/-- The row loop of `Matrix[T].Equal`: `isEqual = isEqual && m[i].Equal(other[i])`.
Go's `&&` short-circuits, so once a row compared unequal the remaining
iterations no longer index `other`; while rows compare equal, running out of
rows of `other` is an out-of-range panic (`none`). Rows of `other` beyond
`m`'s length are never inspected. -/
def matEqLoop {T : Type} (eqf : T → T → Bool) :
    Matrix T → Matrix T → Option Bool
  | [], _ => some true
  | _ :: _, [] => none
  | v :: vs, o :: os =>
    if vecEqual eqf v o then matEqLoop eqf vs os else some false

/-- Embedding of `Matrix[T].Equal`: the element-type dispatch (panic when `T`
is neither primitive nor `Equatable`) happens before the loop, then the row
loop compares via `Vector.Equal`. -/
def Matrix.Equal {T : Type} (ops : ElemOps T) (m other : Matrix T) :
    Option Bool :=
  match elemEqF ops with
  | none => none
  | some eqf => matEqLoop eqf m other

/-! ## Writer-side lemmas: accepted bytes of a successful write -/

theorem Sink.write_some {s s' : Sink} {bs : List Nat}
    (h : s.write bs = some s') : s'.out = s.out ++ bs := by
  unfold Sink.write at h
  split at h
  · exact (Option.some.inj h) ▸ rfl
  · exact absurd h (by simp)

theorem BufWriter.write_acc {w w' : BufWriter} {bs : List Nat}
    (h : w.write bs = (w', none)) : w'.acc = w.acc ++ bs := by
  unfold BufWriter.write at h
  split at h
  · cases h
    simp [BufWriter.acc]
  · split at h
    · cases h
    · rename_i s hf
      split at h
      · cases h
        simp [BufWriter.acc, Sink.write_some hf]
      · split at h
        · rename_i s2 hd
          cases h
          simp [BufWriter.acc, Sink.write_some hd, Sink.write_some hf]
        · cases h

theorem BufWriter.flush_none {w w' : BufWriter}
    (h : w.flush = (w', none)) : w'.acc = w.acc ∧ w'.buf = [] := by
  unfold BufWriter.flush at h
  cases hf : w.sink.write w.buf with
  | none => rw [hf] at h; cases h
  | some s =>
    rw [hf] at h
    cases h
    have hs := Sink.write_some hf
    exact ⟨by simp [BufWriter.acc, hs], rfl⟩

theorem elemsWrite_acc {T : Type} (ops : ElemOps T) (v : List T) :
    ∀ {w : BufWriter} {n : Nat} {w' : BufWriter},
      elemsWrite ops v w = (n, w', none) →
      ∃ bs, elemsEncode ops v = some bs ∧ w'.acc = w.acc ++ bs ∧ n = bs.length := by
  induction v with
  | nil =>
    intro w n w' h
    cases h
    exact ⟨[], rfl, by simp, rfl⟩
  | cons t ts ih =>
    intro w n w' h
    unfold elemsWrite at h
    split at h
    · cases h
    · rename_i bs hw
      split at h
      · cases h
      · rename_i w1 hb
        split at h
        rename_i n2 w2 e2 hr
        cases h
        obtain ⟨bs2, henc, hacc, hn⟩ := ih hr
        refine ⟨bs ++ bs2, ?_, ?_, ?_⟩
        · simp [elemsEncode, hw, henc]
        · rw [hacc, BufWriter.write_acc hb, List.append_assoc]
        · simp [hn]

theorem vecWriteTo_acc {T : Type} (ops : ElemOps T) {v : List T}
    {w : BufWriter} {n : Nat} {w' : BufWriter}
    (h : Vector.WriteTo ops v w = (n, w', none)) :
    ∃ bs, vecEncode ops v = some bs ∧ w'.acc = w.acc ++ bs ∧ n = bs.length := by
  unfold Vector.WriteTo at h
  split at h
  · cases h
  · rename_i w1 hb
    split at h
    rename_i n2 w2 e2 hr
    cases h
    obtain ⟨bs2, henc, hacc, hn⟩ := elemsWrite_acc ops v hr
    refine ⟨u64Bytes v.length ++ bs2, ?_, ?_, ?_⟩
    · simp [vecEncode, henc]
    · rw [hacc, BufWriter.write_acc hb, List.append_assoc]
    · simp [hn, u64Bytes_length]

theorem rowsWrite_acc {T : Type} (ops : ElemOps T) (m : Matrix T) :
    ∀ {w : BufWriter} {n : Nat} {w' : BufWriter},
      rowsWrite ops m w = (n, w', none) →
      ∃ bs, rowsEncode ops m = some bs ∧ w'.acc = w.acc ++ bs ∧ n = bs.length := by
  induction m with
  | nil =>
    intro w n w' h
    cases h
    exact ⟨[], rfl, by simp, rfl⟩
  | cons v vs ih =>
    intro w n w' h
    unfold rowsWrite at h
    split at h
    · cases h
    · rename_i inc w1 hv
      split at h
      rename_i n2 w2 e2 hr
      cases h
      obtain ⟨bs1, henc1, hacc1, hn1⟩ := vecWriteTo_acc ops hv
      obtain ⟨bs2, henc2, hacc2, hn2⟩ := ih hr
      refine ⟨bs1 ++ bs2, ?_, ?_, ?_⟩
      · simp [rowsEncode, henc1, henc2]
      · rw [hacc2, hacc1, List.append_assoc]
      · simp [hn1, hn2]

/-- A successful `Matrix.WriteTo` delivers exactly the encoding `matEncode`
to the writer, reports its length, and leaves an empty buffer behind (the
closing `w.Flush()` of the source). -/
theorem matWriteTo_acc {T : Type} (ops : ElemOps T) {m : Matrix T}
    {w : BufWriter} {n : Nat} {w' : BufWriter}
    (h : Matrix.WriteTo ops m w = (n, w', none)) :
    ∃ bs, matEncode ops m = some bs ∧ w'.acc = w.acc ++ bs ∧ n = bs.length ∧
      w'.buf = [] := by
  unfold Matrix.WriteTo at h
  split at h
  · cases h
  · rename_i w1 hb
    split at h
    · cases h
    · rename_i n2 w2 hr
      split at h
      rename_i w3 e3 hf
      cases h
      obtain ⟨hacc3, hbuf3⟩ := BufWriter.flush_none hf
      obtain ⟨bs2, henc, hacc, hn⟩ := rowsWrite_acc ops m hr
      refine ⟨u64Bytes m.length ++ bs2, ?_, ?_, ?_, hbuf3⟩
      · simp [matEncode, henc]
      · rw [hacc3, hacc, BufWriter.write_acc hb, List.append_assoc]
      · simp [hn, u64Bytes_length]

/-! ## Encoding sizes -/

theorem elemsEncode_length {T : Type} (ops : ElemOps T) (v : List T) :
    ∀ {bs : List Nat}, elemsEncode ops v = some bs →
      (∀ t ∈ v, ∀ bs', ops.write t = some bs' → bs'.length = ops.size t) →
      bs.length = (v.map ops.size).sum := by
  induction v with
  | nil => intro bs h _; cases h; rfl
  | cons t ts ih =>
    intro bs h hsz
    unfold elemsEncode at h
    split at h
    · rename_i b1 b2 hw henc
      cases h
      have h1 : b1.length = ops.size t := hsz t (by simp) b1 hw
      have h2 : b2.length = (ts.map ops.size).sum :=
        ih henc (fun u hu => hsz u (by simp [hu]))
      simp [h1, h2]
    · cases h

theorem vecEncode_length {T : Type} (ops : ElemOps T) {v : List T}
    {bs : List Nat} (h : vecEncode ops v = some bs)
    (hsz : ∀ t ∈ v, ∀ bs', ops.write t = some bs' → bs'.length = ops.size t) :
    bs.length = Vector.BinarySize ops v := by
  unfold vecEncode at h
  split at h
  · rename_i b2 henc
    cases h
    simp [Vector.BinarySize, u64Bytes_length, elemsEncode_length ops v henc hsz]
  · cases h

theorem rowsEncode_length {T : Type} (ops : ElemOps T) (m : Matrix T) :
    ∀ {bs : List Nat}, rowsEncode ops m = some bs →
      (∀ v ∈ m, ∀ t ∈ v, ∀ bs', ops.write t = some bs' → bs'.length = ops.size t) →
      bs.length = (m.map (Vector.BinarySize ops)).sum := by
  induction m with
  | nil => intro bs h _; cases h; rfl
  | cons v vs ih =>
    intro bs h hsz
    unfold rowsEncode at h
    split at h
    · rename_i b1 b2 hv henc
      cases h
      have h1 : b1.length = Vector.BinarySize ops v :=
        vecEncode_length ops hv (hsz v (by simp))
      have h2 : b2.length = (vs.map (Vector.BinarySize ops)).sum :=
        ih henc (fun u hu => hsz u (by simp [hu]))
      simp [h1, h2]
    · cases h

theorem matEncode_length {T : Type} (ops : ElemOps T) {m : Matrix T}
    {bs : List Nat} (h : matEncode ops m = some bs)
    (hsz : ∀ v ∈ m, ∀ t ∈ v, ∀ bs', ops.write t = some bs' → bs'.length = ops.size t) :
    bs.length = Matrix.BinarySize ops m := by
  unfold matEncode at h
  split at h
  · rename_i b2 henc
    cases h
    simp [Matrix.BinarySize, u64Bytes_length, rowsEncode_length ops m henc hsz]
  · cases h

/-! ## Reader-side lemmas: decoding a well-formed stream -/

theorem elemsRead_encode {T : Type} (ops : ElemOps T) (v : List T) :
    ∀ {bs : List Nat} (rest : Reader), elemsEncode ops v = some bs →
      (∀ t ∈ v, ∀ bs' r', ops.write t = some bs' →
        ops.read (bs' ++ r') = some (t, r')) →
      elemsRead ops v.length (bs ++ rest) = (bs.length, v, rest, none) := by
  induction v with
  | nil => intro bs rest h _; cases h; rfl
  | cons t ts ih =>
    intro bs rest h hrt
    unfold elemsEncode at h
    split at h
    · rename_i b1 b2 hw henc
      cases h
      have hread : ops.read (b1 ++ (b2 ++ rest)) = some (t, b2 ++ rest) :=
        hrt t (by simp) b1 (b2 ++ rest) hw
      have hrec : elemsRead ops ts.length (b2 ++ rest) = (b2.length, ts, rest, none) :=
        ih rest henc (fun u hu => hrt u (by simp [hu]))
      show elemsRead ops (ts.length + 1) ((b1 ++ b2) ++ rest) = _
      rw [List.append_assoc]
      unfold elemsRead
      rw [hread]
      simp only [hrec]
      have hlen : (b1 ++ (b2 ++ rest)).length - (b2 ++ rest).length = b1.length := by
        simp
      rw [hlen]
      simp
    · cases h

theorem vecReadFrom_encode {T : Type} (ops : ElemOps T) {v : List T}
    {bs : List Nat} (rest : Reader) (h : vecEncode ops v = some bs)
    (hlen : v.length < 2 ^ 64)
    (hrt : ∀ t ∈ v, ∀ bs' r', ops.write t = some bs' →
      ops.read (bs' ++ r') = some (t, r')) :
    Vector.ReadFrom ops (bs ++ rest) = (bs.length, v, rest, none) := by
  unfold vecEncode at h
  split at h
  · rename_i b2 henc
    cases h
    have hhdr : readAsUint64 ((u64Bytes v.length ++ b2) ++ rest) =
        some (v.length, b2 ++ rest) := by
      rw [List.append_assoc]
      exact readAsUint64_append hlen (b2 ++ rest)
    unfold Vector.ReadFrom
    rw [hhdr]
    simp only [elemsRead_encode ops v rest henc hrt]
    simp [u64Bytes_length]
  · cases h

theorem rowsRead_encode {T : Type} (ops : ElemOps T) (m : Matrix T) :
    ∀ {bs : List Nat} (rest : Reader), rowsEncode ops m = some bs →
      (∀ v ∈ m, v.length < 2 ^ 64) →
      (∀ v ∈ m, ∀ t ∈ v, ∀ bs' r', ops.write t = some bs' →
        ops.read (bs' ++ r') = some (t, r')) →
      rowsRead ops m.length (bs ++ rest) = (bs.length, m, rest, none) := by
  induction m with
  | nil => intro bs rest h _ _; cases h; rfl
  | cons v vs ih =>
    intro bs rest h hlen hrt
    unfold rowsEncode at h
    split at h
    · rename_i b1 b2 hv henc
      cases h
      have hvec : Vector.ReadFrom ops (b1 ++ (b2 ++ rest)) =
          (b1.length, v, b2 ++ rest, none) :=
        vecReadFrom_encode ops (b2 ++ rest) hv (hlen v (by simp))
          (hrt v (by simp))
      have hrec : rowsRead ops vs.length (b2 ++ rest) = (b2.length, vs, rest, none) :=
        ih rest henc (fun u hu => hlen u (by simp [hu]))
          (fun u hu => hrt u (by simp [hu]))
      show rowsRead ops (vs.length + 1) ((b1 ++ b2) ++ rest) = _
      rw [List.append_assoc]
      unfold rowsRead
      rw [hvec]
      simp only [hrec]
      simp
    · cases h

/-- Decoding a well-formed stream: `Matrix.ReadFrom` applied to the bytes a
successful `WriteTo` produced (plus any trailing bytes) returns exactly the
original matrix, consumes exactly the encoding and leaves the trailing bytes
unread. -/
theorem matReadFrom_encode {T : Type} (ops : ElemOps T) {m : Matrix T}
    {bs : List Nat} (rest : Reader) (h : matEncode ops m = some bs)
    (hm : m.length < 2 ^ 64) (hlen : ∀ v ∈ m, v.length < 2 ^ 64)
    (hrt : ∀ v ∈ m, ∀ t ∈ v, ∀ bs' r', ops.write t = some bs' →
      ops.read (bs' ++ r') = some (t, r')) :
    Matrix.ReadFrom ops (bs ++ rest) = (bs.length, m, rest, none) := by
  unfold matEncode at h
  split at h
  · rename_i b2 henc
    cases h
    have hhdr : readAsUint64 ((u64Bytes m.length ++ b2) ++ rest) =
        some (m.length, b2 ++ rest) := by
      rw [List.append_assoc]
      exact readAsUint64_append hm (b2 ++ rest)
    unfold Matrix.ReadFrom
    rw [hhdr]
    simp only [rowsRead_encode ops m rest henc hlen hrt]
    simp [u64Bytes_length]
  · cases h

/-! ## Equality lemmas -/

theorem vecEqual_map {T : Type} (eqf : T → T → Bool) (g : T → T) (v : List T)
    (h : ∀ t ∈ v, eqf (g t) t = true) : vecEqual eqf (v.map g) v = true := by
  induction v with
  | nil => rfl
  | cons t ts ih =>
    simp only [List.map_cons, vecEqual, Bool.and_eq_true]
    exact ⟨h t (by simp), ih (fun u hu => h u (by simp [hu]))⟩

theorem vecEqual_refl {T : Type} (eqf : T → T → Bool) (v : List T)
    (h : ∀ t ∈ v, eqf t t = true) : vecEqual eqf v v = true := by
  have := vecEqual_map eqf (fun t => t) v h
  simpa using this

theorem matEqLoop_refl {T : Type} (eqf : T → T → Bool) (m : Matrix T)
    (h : ∀ v ∈ m, ∀ t ∈ v, eqf t t = true) : matEqLoop eqf m m = some true := by
  induction m with
  | nil => rfl
  | cons v vs ih =>
    unfold matEqLoop
    rw [vecEqual_refl eqf v (h v (by simp))]
    exact ih (fun u hu => h u (by simp [hu]))

/-! ## The unbuffered writer (`buffer.Buffer`): `bufCap = 0` -/

theorem BufWriter.write_zero (s : Sink) (bs : List Nat) :
    BufWriter.write ⟨[], 0, s⟩ bs =
      if bs.length ≤ s.cap then
        (⟨[], 0, ⟨s.out ++ bs, s.cap - bs.length⟩⟩, none)
      else (⟨[], 0, s⟩, some IOErr.sinkFail) := by
  cases bs with
  | nil => simp [BufWriter.write, Sink.write]
  | cons b bs' =>
    by_cases hc : (b :: bs').length ≤ s.cap
    · rw [if_pos hc]
      simp only [List.length_cons] at hc
      simp [BufWriter.write, Sink.write, hc]
    · rw [if_neg hc]
      simp only [List.length_cons] at hc
      simp [BufWriter.write, Sink.write, hc]

theorem elemsWrite_zero {T : Type} (ops : ElemOps T) (v : List T) :
    ∀ {bs : List Nat} (s : Sink), elemsEncode ops v = some bs →
      bs.length ≤ s.cap →
      elemsWrite ops v ⟨[], 0, s⟩ =
        (bs.length, ⟨[], 0, ⟨s.out ++ bs, s.cap - bs.length⟩⟩, none) := by
  induction v with
  | nil =>
    intro bs s h _
    cases h
    simp [elemsWrite]
  | cons t ts ih =>
    intro bs s h hcap
    unfold elemsEncode at h
    split at h
    · rename_i b1 b2 hw henc
      cases h
      have hcap1 : b1.length ≤ s.cap := by
        simp only [List.length_append] at hcap; omega
      have hcap2 : b2.length ≤ s.cap - b1.length := by
        simp only [List.length_append] at hcap; omega
      simp only [elemsWrite, hw, BufWriter.write_zero, if_pos hcap1,
        ih ⟨s.out ++ b1, s.cap - b1.length⟩ henc hcap2]
      simp only [List.length_append, List.append_assoc]
      have hcc : s.cap - b1.length - b2.length = s.cap - (b1.length + b2.length) := by
        omega
      rw [hcc]
    · cases h

theorem vecWriteTo_zero {T : Type} (ops : ElemOps T) {v : List T}
    {bs : List Nat} (s : Sink) (h : vecEncode ops v = some bs)
    (hcap : bs.length ≤ s.cap) :
    Vector.WriteTo ops v ⟨[], 0, s⟩ =
      (bs.length, ⟨[], 0, ⟨s.out ++ bs, s.cap - bs.length⟩⟩, none) := by
  unfold vecEncode at h
  split at h
  · rename_i b2 henc
    cases h
    have h8 : (u64Bytes v.length).length = 8 := u64Bytes_length v.length
    have hcap1 : (u64Bytes v.length).length ≤ s.cap := by
      simp only [List.length_append, h8] at hcap ⊢; omega
    have hcap2 : b2.length ≤
        (Sink.mk (s.out ++ u64Bytes v.length) (s.cap - (u64Bytes v.length).length)).cap := by
      simp only [List.length_append, h8] at hcap ⊢; omega
    simp only [Vector.WriteTo, BufWriter.write_zero, if_pos hcap1,
      elemsWrite_zero ops v _ henc hcap2]
    simp only [List.length_append, List.append_assoc, h8]
    have hcc : s.cap - 8 - b2.length = s.cap - (8 + b2.length) := by omega
    rw [hcc]
  · cases h

theorem rowsWrite_zero {T : Type} (ops : ElemOps T) (m : Matrix T) :
    ∀ {bs : List Nat} (s : Sink), rowsEncode ops m = some bs →
      bs.length ≤ s.cap →
      rowsWrite ops m ⟨[], 0, s⟩ =
        (bs.length, ⟨[], 0, ⟨s.out ++ bs, s.cap - bs.length⟩⟩, none) := by
  induction m with
  | nil =>
    intro bs s h _
    cases h
    simp [rowsWrite]
  | cons v vs ih =>
    intro bs s h hcap
    unfold rowsEncode at h
    split at h
    · rename_i b1 b2 hv henc
      cases h
      have hcap1 : b1.length ≤ s.cap := by
        simp only [List.length_append] at hcap; omega
      have hcap2 : b2.length ≤ s.cap - b1.length := by
        simp only [List.length_append] at hcap; omega
      simp only [rowsWrite, vecWriteTo_zero ops s hv hcap1,
        ih ⟨s.out ++ b1, s.cap - b1.length⟩ henc hcap2]
      simp only [List.length_append, List.append_assoc]
      have hcc : s.cap - b1.length - b2.length = s.cap - (b1.length + b2.length) := by
        omega
      rw [hcc]
    · cases h

/-- Success of `Matrix.WriteTo` on an unbuffered writer with enough sink
capacity for the whole encoding. -/
theorem matWriteTo_zero {T : Type} (ops : ElemOps T) {m : Matrix T}
    {bs : List Nat} (s : Sink) (h : matEncode ops m = some bs)
    (hcap : bs.length ≤ s.cap) :
    Matrix.WriteTo ops m ⟨[], 0, s⟩ =
      (bs.length, ⟨[], 0, ⟨s.out ++ bs, s.cap - bs.length⟩⟩, none) := by
  unfold matEncode at h
  split at h
  · rename_i b2 henc
    cases h
    have h8 : (u64Bytes m.length).length = 8 := u64Bytes_length m.length
    have hcap1 : (u64Bytes m.length).length ≤ s.cap := by
      simp only [List.length_append, h8] at hcap ⊢; omega
    have hcap2 : b2.length ≤
        (Sink.mk (s.out ++ u64Bytes m.length) (s.cap - (u64Bytes m.length).length)).cap := by
      simp only [List.length_append, h8] at hcap ⊢; omega
    have hflush : ∀ s2 : Sink, BufWriter.flush ⟨[], 0, s2⟩ = (⟨[], 0, s2⟩, none) := by
      intro s2
      simp [BufWriter.flush, Sink.write]
    simp only [Matrix.WriteTo, BufWriter.write_zero, if_pos hcap1,
      rowsWrite_zero ops m _ henc hcap2, hflush]
    simp only [List.length_append, List.append_assoc, h8]
    have hcc : s.cap - 8 - b2.length = s.cap - (8 + b2.length) := by omega
    rw [hcc]
  · cases h

/-! ## Totality of the encoder for element types whose write codec is total -/

theorem elemsEncode_total {T : Type} (ops : ElemOps T) (v : List T)
    (h : ∀ t ∈ v, (ops.write t).isSome) : (elemsEncode ops v).isSome := by
  induction v with
  | nil => simp [elemsEncode]
  | cons t ts ih =>
    have ht := h t (by simp)
    obtain ⟨b1, hb1⟩ := Option.isSome_iff_exists.mp ht
    obtain ⟨b2, hb2⟩ := Option.isSome_iff_exists.mp
      (ih (fun u hu => h u (by simp [hu])))
    simp [elemsEncode, hb1, hb2]

theorem vecEncode_total {T : Type} (ops : ElemOps T) (v : List T)
    (h : ∀ t ∈ v, (ops.write t).isSome) : (vecEncode ops v).isSome := by
  obtain ⟨b, hb⟩ := Option.isSome_iff_exists.mp (elemsEncode_total ops v h)
  simp [vecEncode, hb]

theorem rowsEncode_total {T : Type} (ops : ElemOps T) (m : Matrix T)
    (h : ∀ v ∈ m, ∀ t ∈ v, (ops.write t).isSome) : (rowsEncode ops m).isSome := by
  induction m with
  | nil => simp [rowsEncode]
  | cons v vs ih =>
    obtain ⟨b1, hb1⟩ := Option.isSome_iff_exists.mp
      (vecEncode_total ops v (h v (by simp)))
    obtain ⟨b2, hb2⟩ := Option.isSome_iff_exists.mp
      (ih (fun u hu => h u (by simp [hu])))
    simp [rowsEncode, hb1, hb2]

theorem matEncode_total {T : Type} (ops : ElemOps T) (m : Matrix T)
    (h : ∀ v ∈ m, ∀ t ∈ v, (ops.write t).isSome) : (matEncode ops m).isSome := by
  obtain ⟨b, hb⟩ := Option.isSome_iff_exists.mp (rowsEncode_total ops m h)
  simp [matEncode, hb]

/-! ## Characterization of the `Equal` loop -/

/-- What the row loop of `Matrix.Equal` actually decides: every row of `m`
(indexed from `m`) equals the corresponding row of `other`; rows of `other`
beyond `m.length` are ignored. -/
theorem matEqLoop_eq_true_iff {T : Type} (eqf : T → T → Bool) (m : Matrix T) :
    ∀ other : Matrix T, matEqLoop eqf m other = some true ↔
      (m.length ≤ other.length ∧
        ∀ i, i < m.length → vecEqual eqf (m.getD i []) (other.getD i []) = true) := by
  induction m with
  | nil =>
    intro other
    simp [matEqLoop]
  | cons v vs ih =>
    intro other
    cases other with
    | nil =>
      simp [matEqLoop]
    | cons o os =>
      unfold matEqLoop
      by_cases hvo : vecEqual eqf v o = true
      · rw [if_pos hvo, ih os]
        constructor
        · rintro ⟨hle, hall⟩
          refine ⟨by simpa using hle, ?_⟩
          intro i hi
          cases i with
          | zero => simpa using hvo
          | succ j =>
            simp only [List.getD_cons_succ]
            exact hall j (by simpa using hi)
        · rintro ⟨hle, hall⟩
          refine ⟨by simpa using hle, ?_⟩
          intro j hj
          have := hall (j + 1) (by simpa using hj)
          simpa using this
      · rw [if_neg hvo]
        constructor
        · intro h
          exact absurd (Option.some.inj h) (by simp)
        · rintro ⟨_, hall⟩
          have := hall 0 (by simp)
          simp only [List.getD_cons_zero] at this
          exact absurd this hvo

/-! ## Error propagation shapes -/

theorem rowsRead_err {T : Type} (ops : ElemOps T) (k : Nat) :
    ∀ {r : Reader} {n : Nat} {m : Matrix T} {r' : Reader} {e : IOErr},
      rowsRead ops k r = (n, m, r', some e) →
      ∃ e', e = IOErr.vectorReadFrom e' := by
  induction k with
  | zero => intro r n m r' e h; cases h
  | succ k ih =>
    intro r n m r' e h
    unfold rowsRead at h
    split at h
    · rename_i inc w1 e1 hv
      cases h
      exact ⟨e1, rfl⟩
    · rename_i inc v r1 hv
      split at h
      rename_i n2 vs r2 e2 hr
      cases h
      exact ih hr

/-- Every error `Matrix.ReadFrom` reports is a typed wrapped error naming
the failing component: the row-count header codec or a row's vector codec. -/
theorem Matrix.ReadFrom_err {T : Type} (ops : ElemOps T) {r : Reader}
    {n : Nat} {m : Matrix T} {r' : Reader} {e : IOErr}
    (h : Matrix.ReadFrom ops r = (n, m, r', some e)) :
    (∃ e', e = IOErr.readAsUint64 e') ∨ (∃ e', e = IOErr.vectorReadFrom e') := by
  unfold Matrix.ReadFrom at h
  split at h
  · cases h
    exact Or.inl ⟨IOErr.shortRead, rfl⟩
  · rename_i size r1 hhdr
    split at h
    rename_i n2 m2 r2 e2 hr
    cases h
    exact Or.inr (rowsRead_err ops size hr)

theorem rowsWrite_err {T : Type} (ops : ElemOps T) (m : Matrix T) :
    ∀ {w : BufWriter} {n : Nat} {w' : BufWriter} {e : IOErr},
      rowsWrite ops m w = (n, w', some e) →
      ∃ e', e = IOErr.vectorWriteTo e' := by
  induction m with
  | nil => intro w n w' e h; cases h
  | cons v vs ih =>
    intro w n w' e h
    unfold rowsWrite at h
    split at h
    · rename_i inc w1 e1 hv
      cases h
      exact ⟨e1, rfl⟩
    · rename_i inc w1 hv
      split at h
      rename_i n2 w2 e2 hr
      cases h
      exact ih hr

/-- Every error `Matrix.WriteTo` reports is either a typed wrapped error
naming the failing component (the row-count header codec or a row's vector
codec) or the closing flush's sink failure, which the source returns
unwrapped. -/
theorem Matrix.WriteTo_err {T : Type} (ops : ElemOps T) {m : Matrix T}
    {w : BufWriter} {n : Nat} {w' : BufWriter} {e : IOErr}
    (h : Matrix.WriteTo ops m w = (n, w', some e)) :
    (∃ e', e = IOErr.writeAsUint64 e') ∨ (∃ e', e = IOErr.vectorWriteTo e') ∨
      e = IOErr.sinkFail := by
  unfold Matrix.WriteTo at h
  split at h
  · rename_i w1 e1 hb
    cases h
    exact Or.inl ⟨e1, rfl⟩
  · rename_i w1 hb
    split at h
    · rename_i n2 w2 e2 hr
      cases h
      exact Or.inr (Or.inl (rowsWrite_err ops m hr))
    · rename_i n2 w2 hr
      split at h
      rename_i w3 e3 hf
      cases h
      rename_i hsome
      unfold BufWriter.flush at hf
      split at hf
      · cases hf
      · cases hf
        exact Or.inr (Or.inr rfl)

/-! ## The ring engine element

Modelled from the spec: the polynomial ring arithmetic is an external
collaborator; the core consumes only allocation, deep copy, level query,
byte size and a stream codec (spec sections 1 and 2). A `ringqp.Poly` is
modelled as its RNS coefficient table for the modulus Q (level = number of
RNS rows minus one) and an optional table for the auxiliary modulus P
(absent means `LevelP = -1`). Its codec is modelled as the self-describing
`Matrix` wire format for the Q table, one u64 presence flag, and the P table
when present; `BinarySize` is exactly the encoding length, as the spec's
`BinarySizer` contract requires. Missing source: `rlwe/ringqp` and
`ring.Poly`. -/

/-- Element operations for 64-bit unsigned coefficients: a built-in
primitive kind with the fixed-width u64 codec. -/
def u64Ops : ElemOps Nat where
  isPrim := true
  primEq := fun a b => a == b
  copyNewer := none
  equatable := none
  size := fun _ => 8
  write := fun x => some (u64Bytes x)
  read := readAsUint64

/-- Total encoder for matrices whose element codec always succeeds. -/
def matEncodeB {T : Type} (ops : ElemOps T) (m : Matrix T) : List Nat :=
  (matEncode ops m).getD []

theorem matEncode_eq_matEncodeB {T : Type} (ops : ElemOps T) (m : Matrix T)
    (h : ∀ v ∈ m, ∀ t ∈ v, (ops.write t).isSome) :
    matEncode ops m = some (matEncodeB ops m) := by
  obtain ⟨bs, hbs⟩ := Option.isSome_iff_exists.mp (matEncode_total ops m h)
  simp [matEncodeB, hbs]

/-- A `ringqp.Poly`: RNS coefficient rows for Q, optional rows for P. -/
structure Poly where
  Q : List (List Nat)
  P : Option (List (List Nat))
deriving DecidableEq

/-- Level of the modulus Q: RNS row count minus one. -/
def Poly.LevelQ (p : Poly) : Int := (p.Q.length : Int) - 1

/-- Level of the modulus P, `-1` when P is absent. -/
def Poly.LevelP (p : Poly) : Int :=
  match p.P with
  | none => -1
  | some pp => (pp.length : Int) - 1

/-- Deep copy of a ring element (on pure values, the same table). -/
def Poly.CopyNew (p : Poly) : Poly := ⟨p.Q, p.P⟩

/-- Byte encoding of a ring element. -/
def polyEncode (p : Poly) : List Nat :=
  matEncodeB u64Ops p.Q ++
    (match p.P with
     | none => u64Bytes 0
     | some pp => u64Bytes 1 ++ matEncodeB u64Ops pp)

/-- `Poly.BinarySize`: exactly the encoding length. -/
def polyBinarySize (p : Poly) : Nat := (polyEncode p).length

/-- Stream decoder of a ring element. -/
def polyReadFrom (r : Reader) : Nat × Poly × Reader × Option IOErr :=
  match Matrix.ReadFrom u64Ops r with
  | (n1, _, r1, some e) => (n1, ⟨[], none⟩, r1, some e)
  | (n1, q, r1, none) =>
    match readAsUint64 r1 with
    | none => (n1, ⟨q, none⟩, r1, some IOErr.shortRead)
    | some (flag, r2) =>
      if flag = 0 then (n1 + 8, ⟨q, none⟩, r2, none)
      else
        match Matrix.ReadFrom u64Ops r2 with
        | (n2, pm, r3, e3) => (n1 + 8 + n2, ⟨q, some pm⟩, r3, e3)

/-- Stream encoder of a ring element on a buffered writer: the Q table via
the matrix codec, the presence flag, then the P table; a trailing flush
delivers the flag of a P-less element. -/
def polyWriteTo (p : Poly) (w : BufWriter) : Nat × BufWriter × Option IOErr :=
  match Matrix.WriteTo u64Ops p.Q w with
  | (n1, w1, some e) => (n1, w1, some e)
  | (n1, w1, none) =>
    match p.P with
    | none =>
      match w1.write (u64Bytes 0) with
      | (w2, some e) => (n1, w2, some e)
      | (w2, none) =>
        match w2.flush with
        | (w3, e3) => (n1 + 8, w3, e3)
    | some pp =>
      match w1.write (u64Bytes 1) with
      | (w2, some e) => (n1, w2, some e)
      | (w2, none) =>
        match Matrix.WriteTo u64Ops pp w2 with
        | (n2, w3, e3) => (n1 + 8 + n2, w3, e3)

/-- Coefficient tables whose dimensions and entries fit the u64 wire
format. -/
def matValidU (m : List (List Nat)) : Prop :=
  m.length < 2 ^ 64 ∧ ∀ v ∈ m, v.length < 2 ^ 64 ∧ ∀ x ∈ v, x < 2 ^ 64

/-- A ring element representable on the wire. -/
def Poly.Valid (p : Poly) : Prop :=
  matValidU p.Q ∧ ∀ pp, p.P = some pp → matValidU pp

/-! ## SecretKey (source: `rlwe/secretkey.go`) -/

/-- Embedding of `rlwe.SecretKey`: wraps one ring element. -/
structure SecretKey where
  Value : Poly
deriving DecidableEq

/-- Embedding of `SecretKey.Equal`: `cmp.Equal`, structural equality of the
wrapped ring elements. -/
def SecretKey.Equal (sk other : SecretKey) : Bool :=
  decide (sk.Value = other.Value)

/-- Embedding of `SecretKey.CopyNew`, a method on the pointer receiver
`*SecretKey`: `none` models the nil pointer, for which the source returns
nil before dereferencing; otherwise a deep copy of the wrapped element. -/
def SecretKey.CopyNew : Option SecretKey → Option SecretKey
  | none => none
  | some sk => some ⟨sk.Value.CopyNew⟩

/-- Embedding of `SecretKey.BinarySize`: the element's size, no framing. -/
def SecretKey.BinarySize (sk : SecretKey) : Nat := polyBinarySize sk.Value

/-- Embedding of `SecretKey.WriteTo`: delegates to the element. -/
def SecretKey.WriteTo (sk : SecretKey) (w : BufWriter) :
    Nat × BufWriter × Option IOErr :=
  polyWriteTo sk.Value w

/-- Embedding of `SecretKey.ReadFrom`: delegates to the element. -/
def SecretKey.ReadFrom (r : Reader) : Nat × SecretKey × Reader × Option IOErr :=
  match polyReadFrom r with
  | (n, p, r1, e) => (n, ⟨p⟩, r1, e)

/-- Embedding of `SecretKey.MarshalBinary`: allocate `BinarySize()` bytes
and fill them via `sk.Read`, the in-place encoder of the ring engine, which
produces the same bytes as `WriteTo`. -/
def SecretKey.MarshalBinary (sk : SecretKey) : List Nat × Option IOErr :=
  (polyEncode sk.Value, none)

/-- Embedding of `SecretKey.UnmarshalBinary`: decode via `sk.Write`, the
ring engine's slice decoder, equivalent to `ReadFrom` on the same bytes. -/
def SecretKey.UnmarshalBinary (p : List Nat) : SecretKey × Option IOErr :=
  match SecretKey.ReadFrom p with
  | (_, sk, _, e) => (sk, e)

/-! ## GadgetCiphertext

Modelled from the spec: a gadget ciphertext is a `Matrix` whose rows are
digits and whose entries are ring-element pairs (spec section 3); its levels
are derived queries on the first owned entry; `NewGadgetCiphertext` builds
`digitCount` rows of zero pairs at the requested levels, the digit count
being a function of the level of Q and the base (`0` meaning a single
digit). Missing source: `rlwe/gadgetciphertext.go`. -/

/-- A ring-element pair, one gadget matrix entry. -/
structure PolyPair where
  a : Poly
  b : Poly
deriving DecidableEq

/-- The zero pair, used as lookup default for the level queries. -/
def zeroPair : PolyPair := ⟨⟨[], none⟩, ⟨[], none⟩⟩

/-- Byte encoding of a pair: both elements, in order, no framing. -/
def pairEncode (pp : PolyPair) : List Nat := polyEncode pp.a ++ polyEncode pp.b

/-- Decoder of a pair. -/
def pairRead (r : Reader) : Option (PolyPair × Reader) :=
  match polyReadFrom r with
  | (_, _, _, some _) => none
  | (_, a, r1, none) =>
    match polyReadFrom r1 with
    | (_, _, _, some _) => none
    | (_, b, r2, none) => some (⟨a, b⟩, r2)

/-- Element operations for ring-element pairs: a structured type
implementing all four capability interfaces. -/
def pairOps : ElemOps PolyPair where
  isPrim := false
  primEq := fun _ _ => false
  copyNewer := some (fun pp => ⟨pp.a.CopyNew, pp.b.CopyNew⟩)
  equatable := some (fun x y => decide (x = y))
  size := fun pp => (pairEncode pp).length
  write := fun pp => some (pairEncode pp)
  read := pairRead

/-- A gadget ciphertext: the digit matrix of ring-element pairs. -/
structure GadgetCiphertext where
  Value : Matrix PolyPair
deriving DecidableEq

/-- Level of Q, derived from the first owned entry. -/
def GadgetCiphertext.LevelQ (g : GadgetCiphertext) : Int :=
  (((g.Value.headD []).headD zeroPair).a).LevelQ

/-- Level of P, derived from the first owned entry. -/
def GadgetCiphertext.LevelP (g : GadgetCiphertext) : Int :=
  (((g.Value.headD []).headD zeroPair).a).LevelP

def GadgetCiphertext.BinarySize (g : GadgetCiphertext) : Nat :=
  Matrix.BinarySize pairOps g.Value

def GadgetCiphertext.WriteTo (g : GadgetCiphertext) (w : BufWriter) :
    Nat × BufWriter × Option IOErr :=
  Matrix.WriteTo pairOps g.Value w

def GadgetCiphertext.ReadFrom (r : Reader) :
    Nat × GadgetCiphertext × Reader × Option IOErr :=
  match Matrix.ReadFrom pairOps r with
  | (n, m, r1, e) => (n, ⟨m⟩, r1, e)

/-- Total byte encoding of a gadget ciphertext (the pair codec is total). -/
def gctEncode (g : GadgetCiphertext) : List Nat := matEncodeB pairOps g.Value

/-- Ring parameters the constructors consume; only the ring degree matters
to this layer. -/
structure Parameters where
  N : Nat
deriving DecidableEq

/-- Modelled from the spec: the digit (row) count implied by the level of Q
and the base (`0` meaning a single digit); the exact formula lives in the
missing `rlwe` sources, the claims only depend on it being a function of
these arguments. -/
def digitCount (levelQ base : Nat) : Nat :=
  if base = 0 then 1 else (64 * (levelQ + 1) + base - 1) / base

/-- Zero ring element at the given levels (P absent when `levelP < 0`). -/
def zeroPoly (params : Parameters) (levelQ : Nat) (levelP : Int) : Poly :=
  ⟨List.replicate (levelQ + 1) (List.replicate params.N 0),
   if 0 ≤ levelP then
     some (List.replicate (levelP.toNat + 1) (List.replicate params.N 0))
   else none⟩

/-- Modelled from the spec: `rlwe.NewGadgetCiphertext` allocates the digit
matrix of zero pairs, one pair per (digit, level of Q) combination. -/
def NewGadgetCiphertext (params : Parameters) (degree levelQ : Nat)
    (levelP : Int) (base : Nat) : GadgetCiphertext :=
  ⟨List.replicate (digitCount levelQ base)
    (List.replicate (levelQ + 1)
      ⟨zeroPoly params levelQ levelP, zeroPoly params levelQ levelP⟩)⟩

/-! ## RGSW Ciphertext (source: `core/rgsw/elements.go`) -/

/-- Embedding of `rgsw.Ciphertext`: `Value [2]rlwe.GadgetCiphertext`. -/
structure Ciphertext where
  Value : GadgetCiphertext × GadgetCiphertext
deriving DecidableEq

/-- Embedding of `Ciphertext.LevelQ`: reads `Value[0]`. -/
def Ciphertext.LevelQ (ct : Ciphertext) : Int := ct.Value.1.LevelQ

/-- Embedding of `Ciphertext.LevelP`: reads `Value[0]`. -/
def Ciphertext.LevelP (ct : Ciphertext) : Int := ct.Value.1.LevelP

/-- Embedding of `rgsw.NewCiphertext`: two gadget halves constructed with
the same parameters. -/
def NewCiphertext (params : Parameters) (levelQ : Nat) (levelP : Int)
    (BaseTwoDecomposition : Nat) : Ciphertext :=
  ⟨(NewGadgetCiphertext params 1 levelQ levelP BaseTwoDecomposition,
    NewGadgetCiphertext params 1 levelQ levelP BaseTwoDecomposition)⟩

/-- Embedding of `Ciphertext.BinarySize`: both halves, no extra framing. -/
def Ciphertext.BinarySize (ct : Ciphertext) : Nat :=
  ct.Value.1.BinarySize + ct.Value.2.BinarySize

/-- Embedding of the `buffer.Writer` branch of `Ciphertext.WriteTo`: write
`Value[0]` then `Value[1]`; no flush of its own (each half's matrix write
flushes). -/
def Ciphertext.WriteTo (ct : Ciphertext) (w : BufWriter) :
    Nat × BufWriter × Option IOErr :=
  match ct.Value.1.WriteTo w with
  | (n, w1, some e) => (n, w1, some e)
  | (n, w1, none) =>
    match ct.Value.2.WriteTo w1 with
    | (inc, w2, e2) => (n + inc, w2, e2)

/-- Embedding of the `buffer.Reader` branch of `Ciphertext.ReadFrom`. -/
def Ciphertext.ReadFrom (r : Reader) : Nat × Ciphertext × Reader × Option IOErr :=
  match GadgetCiphertext.ReadFrom r with
  | (n, _, r1, some e) => (n, ⟨(⟨[]⟩, ⟨[]⟩)⟩, r1, some e)
  | (n, g0, r1, none) =>
    match GadgetCiphertext.ReadFrom r1 with
    | (inc, g1, r2, e2) => (n + inc, ⟨(g0, g1)⟩, r2, e2)

/-- Embedding of `Ciphertext.MarshalBinary`: write into a fresh buffer of
exactly `BinarySize()` bytes. -/
def Ciphertext.MarshalBinary (ct : Ciphertext) : List Nat × Option IOErr :=
  match Ciphertext.WriteTo ct ⟨[], 0, ⟨[], ct.BinarySize⟩⟩ with
  | (_, w, e) => (w.acc, e)

/-- Embedding of `Ciphertext.UnmarshalBinary`: `ReadFrom` on the bytes. -/
def Ciphertext.UnmarshalBinary (p : List Nat) : Ciphertext × Option IOErr :=
  match Ciphertext.ReadFrom p with
  | (_, ct, _, e) => (ct, e)

/-- Modelled from the spec: structural equality for RGSW ciphertexts (the
`Equatable` contract). -/
def Ciphertext.Equal (x y : Ciphertext) : Bool := decide (x = y)

/-! ## Round-trip lemmas for the ring element codec -/

theorem u64Ops_write_total : ∀ x : Nat, (u64Ops.write x).isSome := by
  intro x
  simp [u64Ops]

theorem matReadFrom_u64 {m : List (List Nat)} (hm : matValidU m) (rest : Reader) :
    Matrix.ReadFrom u64Ops (matEncodeB u64Ops m ++ rest) =
      ((matEncodeB u64Ops m).length, m, rest, none) := by
  refine matReadFrom_encode u64Ops rest
    (matEncode_eq_matEncodeB u64Ops m (fun v _ t _ => u64Ops_write_total t))
    hm.1 (fun v hv => (hm.2 v hv).1) ?_
  intro v hv t ht bs' r' hw
  have hbs : bs' = u64Bytes t := by
    have : some (u64Bytes t) = some bs' := hw
    exact (Option.some.inj this).symm
  subst hbs
  exact readAsUint64_append ((hm.2 v hv).2 t ht) r'

theorem matEncodeB_u64_length {m : List (List Nat)} :
    (matEncodeB u64Ops m).length = Matrix.BinarySize u64Ops m := by
  refine matEncode_length u64Ops
    (matEncode_eq_matEncodeB u64Ops m (fun v _ t _ => u64Ops_write_total t)) ?_
  intro v _ t _ bs' hw
  have : some (u64Bytes t) = some bs' := hw
  rw [← Option.some.inj this]
  simp [u64Ops, u64Bytes_length]

theorem polyWriteTo_acc {p : Poly} {w : BufWriter} {n : Nat} {w' : BufWriter}
    (h : polyWriteTo p w = (n, w', none)) :
    w'.acc = w.acc ++ polyEncode p ∧ n = (polyEncode p).length ∧ w'.buf = [] := by
  unfold polyWriteTo at h
  split at h
  · cases h
  · rename_i n1 w1 hq
    obtain ⟨bsq, hbsq, haccq, hnq, hbufq⟩ := matWriteTo_acc u64Ops hq
    have hqB : matEncodeB u64Ops p.Q = bsq := by simp [matEncodeB, hbsq]
    split at h
    · rename_i hP
      split at h
      · cases h
      · rename_i w2 hw2
        split at h
        rename_i w3 e3 hf
        cases h
        obtain ⟨hacc3, hbuf3⟩ := BufWriter.flush_none hf
        have hacc2 := BufWriter.write_acc hw2
        refine ⟨?_, ?_, hbuf3⟩
        · rw [hacc3, hacc2, haccq, polyEncode, hP, hqB, List.append_assoc]
        · simp [polyEncode, hP, hqB, hnq, u64Bytes_length]
    · rename_i pp hP
      split at h
      · cases h
      · rename_i w2 hw2
        split at h
        rename_i n2 w3 hp2
        cases h
        obtain ⟨bsp, hbsp, haccp, hnp, hbufp⟩ := matWriteTo_acc u64Ops hp2
        have hpB : matEncodeB u64Ops pp = bsp := by simp [matEncodeB, hbsp]
        have hacc2 := BufWriter.write_acc hw2
        have hencP : polyEncode p = bsq ++ (u64Bytes 1 ++ bsp) := by
          simp [polyEncode, hP, hqB, hpB]
        refine ⟨?_, ?_, hbufp⟩
        · rw [haccp, hacc2, haccq, hencP]
          simp [List.append_assoc]
        · simp [hencP, hnq, hnp, u64Bytes_length]
          omega

theorem polyReadFrom_encode {p : Poly} (hp : p.Valid) (rest : Reader) :
    polyReadFrom (polyEncode p ++ rest) = ((polyEncode p).length, p, rest, none) := by
  obtain ⟨hq, hP⟩ := hp
  cases p with
  | mk Q P =>
    cases P with
    | none =>
      have henc : polyEncode ⟨Q, none⟩ = matEncodeB u64Ops Q ++ u64Bytes 0 := by
        simp [polyEncode]
      rw [henc]
      unfold polyReadFrom
      rw [List.append_assoc, matReadFrom_u64 hq (u64Bytes 0 ++ rest)]
      simp only
      rw [readAsUint64_append (by norm_num) rest]
      simp [u64Bytes_length]
    | some pp =>
      have hpp : matValidU pp := hP pp rfl
      have henc : polyEncode ⟨Q, some pp⟩ =
          matEncodeB u64Ops Q ++ (u64Bytes 1 ++ matEncodeB u64Ops pp) := by
        simp [polyEncode]
      rw [henc]
      unfold polyReadFrom
      rw [List.append_assoc,
        matReadFrom_u64 hq ((u64Bytes 1 ++ matEncodeB u64Ops pp) ++ rest)]
      simp only
      rw [List.append_assoc, readAsUint64_append (by norm_num) _]
      simp only [if_neg (by norm_num : ¬ (1 : Nat) = 0)]
      rw [matReadFrom_u64 hpp rest]
      simp [u64Bytes_length]
      omega

/-! ## Round-trip lemmas for pairs and gadget ciphertexts -/

/-- A pair representable on the wire. -/
def PolyPair.Valid (pp : PolyPair) : Prop := pp.a.Valid ∧ pp.b.Valid

theorem pairRead_encode {pp : PolyPair} (hpp : pp.Valid) (rest : Reader) :
    pairRead (pairEncode pp ++ rest) = some (pp, rest) := by
  unfold pairEncode pairRead
  rw [List.append_assoc, polyReadFrom_encode hpp.1 (polyEncode pp.b ++ rest)]
  simp only
  rw [polyReadFrom_encode hpp.2 rest]

/-- A gadget ciphertext representable on the wire. -/
def GadgetCiphertext.Valid (g : GadgetCiphertext) : Prop :=
  g.Value.length < 2 ^ 64 ∧ (∀ v ∈ g.Value, v.length < 2 ^ 64) ∧
    ∀ v ∈ g.Value, ∀ pp ∈ v, pp.Valid

theorem pairOps_write_total : ∀ pp : PolyPair, (pairOps.write pp).isSome := by
  intro pp
  simp [pairOps]

theorem gctEncode_length (g : GadgetCiphertext) :
    (gctEncode g).length = g.BinarySize := by
  refine matEncode_length pairOps
    (matEncode_eq_matEncodeB pairOps g.Value (fun v _ t _ => pairOps_write_total t)) ?_
  intro v _ t _ bs' hw
  have : some (pairEncode t) = some bs' := hw
  rw [← Option.some.inj this]
  rfl

theorem gctReadFrom_encode {g : GadgetCiphertext} (hg : g.Valid) (rest : Reader) :
    GadgetCiphertext.ReadFrom (gctEncode g ++ rest) =
      ((gctEncode g).length, g, rest, none) := by
  have hmat : Matrix.ReadFrom pairOps (matEncodeB pairOps g.Value ++ rest) =
      ((matEncodeB pairOps g.Value).length, g.Value, rest, none) := by
    refine matReadFrom_encode pairOps rest
      (matEncode_eq_matEncodeB pairOps g.Value (fun v _ t _ => pairOps_write_total t))
      hg.1 hg.2.1 ?_
    intro v hv t ht bs' r' hw
    have hbs : bs' = pairEncode t := by
      have : some (pairEncode t) = some bs' := hw
      exact (Option.some.inj this).symm
    subst hbs
    exact pairRead_encode (hg.2.2 v hv t ht) r'
  unfold GadgetCiphertext.ReadFrom gctEncode
  rw [hmat]

theorem gctWriteTo_acc {g : GadgetCiphertext} {w : BufWriter} {n : Nat}
    {w' : BufWriter} (h : g.WriteTo w = (n, w', none)) :
    w'.acc = w.acc ++ gctEncode g ∧ n = (gctEncode g).length ∧ w'.buf = [] := by
  obtain ⟨bs, hbs, hacc, hn, hbuf⟩ := matWriteTo_acc pairOps h
  have hB : gctEncode g = bs := by simp [gctEncode, matEncodeB, hbs]
  exact ⟨by rw [hacc, hB], by rw [hn, hB], hbuf⟩

/-! ## Round-trip lemmas for RGSW ciphertexts -/

/-- An RGSW ciphertext representable on the wire. -/
def Ciphertext.Valid (ct : Ciphertext) : Prop :=
  ct.Value.1.Valid ∧ ct.Value.2.Valid

/-- The byte sequence a successful `Ciphertext.WriteTo` produces: both
halves concatenated with no intervening header. -/
def ctEncode (ct : Ciphertext) : List Nat :=
  gctEncode ct.Value.1 ++ gctEncode ct.Value.2

theorem ctEncode_length (ct : Ciphertext) :
    (ctEncode ct).length = ct.BinarySize := by
  simp [ctEncode, Ciphertext.BinarySize, gctEncode_length]

theorem ctWriteTo_acc {ct : Ciphertext} {w : BufWriter} {n : Nat}
    {w' : BufWriter} (h : ct.WriteTo w = (n, w', none)) :
    w'.acc = w.acc ++ ctEncode ct ∧ n = (ctEncode ct).length ∧ w'.buf = [] := by
  unfold Ciphertext.WriteTo at h
  split at h
  · cases h
  · rename_i n1 w1 h0
    split at h
    rename_i inc w2 e2 h1
    cases h
    obtain ⟨hacc0, hn0, _⟩ := gctWriteTo_acc h0
    obtain ⟨hacc1, hn1, hbuf1⟩ := gctWriteTo_acc h1
    refine ⟨?_, ?_, hbuf1⟩
    · rw [hacc1, hacc0, ctEncode, List.append_assoc]
    · simp [ctEncode, hn0, hn1]

theorem ctReadFrom_encode {ct : Ciphertext} (hct : ct.Valid)
    (rest : Reader) :
    Ciphertext.ReadFrom (ctEncode ct ++ rest) =
      ((ctEncode ct).length, ct, rest, none) := by
  unfold ctEncode Ciphertext.ReadFrom
  rw [List.append_assoc, gctReadFrom_encode hct.1 (gctEncode ct.Value.2 ++ rest)]
  simp only
  rw [gctReadFrom_encode hct.2 rest]
  simp

/-! ## Heap model of row storage

Copy independence is about aliasing of the Go slices: here rows live in a
heap and a matrix on the heap is its outer slice, the list of row
addresses. `Matrix.CopyNew` becomes fresh row allocations; mutating a row
address changes only the slices that reference it. -/

/-- The row heap: address `a` holds `rows[a]`. -/
structure Heap (T : Type) where
  rows : List (List T)

/-- Read the row stored at an address. -/
def Heap.derefRow {T : Type} (h : Heap T) (a : Nat) : List T := h.rows.getD a []

/-- Allocate a fresh row, returning its address. -/
def Heap.alloc {T : Type} (h : Heap T) (row : List T) : Heap T × Nat :=
  (⟨h.rows ++ [row]⟩, h.rows.length)

/-- Overwrite the row at an address (the mutation `y[i] = ...`). -/
def Heap.setRow {T : Type} (h : Heap T) (a : Nat) (row : List T) : Heap T :=
  ⟨h.rows.set a row⟩

/-- A matrix as stored on the heap: the outer slice of row addresses. -/
abbrev HMatrix : Type := List Nat

/-- The value of a heap matrix. -/
def Heap.deref {T : Type} (h : Heap T) (m : HMatrix) : Matrix T :=
  m.map (fun a => h.derefRow a)

/-- The row loop of `Matrix.CopyNew` on the heap: `make` a fresh row per
source row (`f` is the per-row copy: `copy` for primitive kinds, the
element `CopyNew` map for structured kinds). -/
def copyRowsH {T : Type} (f : List T → List T) :
    Heap T → HMatrix → Heap T × HMatrix
  | h, [] => (h, [])
  | h, a :: as_ =>
    match h.alloc (f (h.derefRow a)) with
    | (h1, a1) =>
      match copyRowsH f h1 as_ with
      | (h2, as1) => (h2, a1 :: as1)

/-- Embedding of `Matrix.CopyNew` on the heap model: the same element-type
dispatch as `Matrix.CopyNew`, then fresh row allocations. -/
def Matrix.CopyNewH {T : Type} (ops : ElemOps T) (h : Heap T) (m : HMatrix) :
    Option (Heap T × HMatrix) :=
  match elemCopyF ops with
  | none => none
  | some f => some (copyRowsH (fun row => row.map f) h m)

theorem Heap.derefRow_append {T : Type} (h : Heap T) (extra : List (List T))
    {a : Nat} (ha : a < h.rows.length) :
    Heap.derefRow ⟨h.rows ++ extra⟩ a = h.derefRow a := by
  unfold Heap.derefRow
  exact List.getD_append _ _ _ _ ha

theorem copyRowsH_spec {T : Type} (f : List T → List T) (m : HMatrix) :
    ∀ h : Heap T, (∀ a ∈ m, a < h.rows.length) →
      ∃ (h2 : Heap T) (as1 : HMatrix) (extra : List (List T)),
        copyRowsH f h m = (h2, as1) ∧
        h2.rows = h.rows ++ extra ∧
        (∀ a ∈ as1, h.rows.length ≤ a) ∧
        h2.deref as1 = (h.deref m).map f := by
  induction m with
  | nil =>
    intro h _
    exact ⟨h, [], [], rfl, by simp, by simp, by simp [Heap.deref]⟩
  | cons a as_ ih =>
    intro h hval
    have ha : a < h.rows.length := hval a (by simp)
    obtain ⟨h2, as1, extra, hcr, hrows, hge, hderef⟩ :=
      ih ⟨h.rows ++ [f (h.derefRow a)]⟩
        (by
          intro a2 ha2
          have := hval a2 (by simp [ha2])
          simp only [List.length_append, List.length_singleton]
          omega)
    have hrows2 : h2.rows = h.rows ++ ([f (h.derefRow a)] ++ extra) := by
      rw [hrows, List.append_assoc]
    refine ⟨h2, h.rows.length :: as1, [f (h.derefRow a)] ++ extra, ?_, hrows2, ?_, ?_⟩
    · simp only [copyRowsH, Heap.alloc, hcr]
    · intro a2 ha2
      rcases List.mem_cons.mp ha2 with h1 | hm2
      · omega
      · have := hge a2 hm2
        simp only [List.length_append, List.length_singleton] at this
        omega
    · have hhd : h2.derefRow h.rows.length = f (h.derefRow a) := by
        unfold Heap.derefRow
        rw [hrows2, List.getD_append_right _ _ _ _ (Nat.le_refl _),
          Nat.sub_self, List.singleton_append, List.getD_cons_zero]
        rfl
      have htl : Heap.deref ⟨h.rows ++ [f (h.derefRow a)]⟩ as_ = h.deref as_ := by
        unfold Heap.deref
        refine List.map_congr_left ?_
        intro a2 ha2
        exact Heap.derefRow_append h [f (h.derefRow a)] (hval a2 (by simp [ha2]))
      rw [htl] at hderef
      simp only [Heap.deref, List.map_cons]
      rw [hhd]
      simp only [Heap.deref] at hderef
      rw [hderef]

theorem getD_set_ne_aux {α : Type} (l : List α) (x d : α) {i j : Nat}
    (h : i ≠ j) : (l.set i x).getD j d = l.getD j d := by
  rw [List.getD_eq_getElem?_getD, List.getD_eq_getElem?_getD,
    List.getElem?_set_ne h]

/-- Mutating a row that no address of `m` references leaves the value of `m`
unchanged. -/
theorem Heap.deref_setRow {T : Type} (h : Heap T) {a : Nat} {m : HMatrix}
    (ha : ∀ a2 ∈ m, a2 ≠ a) (v : List T) :
    (h.setRow a v).deref m = h.deref m := by
  unfold Heap.deref
  refine List.map_congr_left ?_
  intro a2 ha2
  unfold Heap.derefRow Heap.setRow
  exact getD_set_ne_aux h.rows v [] (fun he => (ha a2 ha2) he.symm)

theorem matEqLoop_map {T : Type} (eqf : T → T → Bool) (g : T → T) (M : Matrix T)
    (h : ∀ v ∈ M, ∀ t ∈ v, eqf (g t) t = true) :
    matEqLoop eqf (M.map (List.map g)) M = some true := by
  induction M with
  | nil => rfl
  | cons v vs ih =>
    simp only [List.map_cons]
    unfold matEqLoop
    rw [vecEqual_map eqf g v (h v (by simp))]
    simp only [if_true]
    exact ih (fun u hu => h u (by simp [hu]))

/-- An element type that is neither one of the built-in primitive kinds nor
an implementer of any capability interface, with a failing write codec: used
to exercise the rejection and error paths. -/
def badOps : ElemOps Unit where
  isPrim := false
  primEq := fun _ _ => false
  copyNewer := none
  equatable := none
  size := fun _ => 0
  write := fun _ => none
  read := fun _ => none

/-- Pointwise element-codec round trip for u64 coefficients below the word
bound. -/
theorem u64Ops_hrt {m : List (List Nat)} (hm : ∀ v ∈ m, ∀ t ∈ v, t < 2 ^ 64) :
    ∀ v ∈ m, ∀ t ∈ v, ∀ bs' r', u64Ops.write t = some bs' →
      u64Ops.read (bs' ++ r') = some (t, r') := by
  intro v hv t ht bs' r' hw
  have hbs : bs' = u64Bytes t := by
    have : some (u64Bytes t) = some bs' := hw
    exact (Option.some.inj this).symm
  subst hbs
  exact readAsUint64_append (hm v hv t ht) r'

/-- Pointwise element-size law for the u64 codec. -/
theorem u64Ops_hsz {m : List (List Nat)} :
    ∀ v ∈ m, ∀ t ∈ v, ∀ bs', u64Ops.write t = some bs' →
      bs'.length = u64Ops.size t := by
  intro v _ t _ bs' hw
  have : some (u64Bytes t) = some bs' := hw
  rw [← Option.some.inj this]
  simp [u64Ops, u64Bytes_length]

/-! ## Claim theorems -/

/-- C6: every RGSW ciphertext produced by `NewCiphertext` consists of exactly
two gadget halves sharing identical `LevelQ`, `LevelP` and digit (row)
count, and `Ciphertext.LevelQ`/`LevelP` are derived queries reading the
first half. -/
theorem C6_new_ciphertext_halves (params : Parameters) (levelQ : Nat)
    (levelP : Int) (BaseTwoDecomposition : Nat) :
    (NewCiphertext params levelQ levelP BaseTwoDecomposition).Value.1 =
      NewGadgetCiphertext params 1 levelQ levelP BaseTwoDecomposition ∧
    (NewCiphertext params levelQ levelP BaseTwoDecomposition).Value.2 =
      NewGadgetCiphertext params 1 levelQ levelP BaseTwoDecomposition ∧
    (NewCiphertext params levelQ levelP BaseTwoDecomposition).Value.1.LevelQ =
      (NewCiphertext params levelQ levelP BaseTwoDecomposition).Value.2.LevelQ ∧
    (NewCiphertext params levelQ levelP BaseTwoDecomposition).Value.1.LevelP =
      (NewCiphertext params levelQ levelP BaseTwoDecomposition).Value.2.LevelP ∧
    (NewCiphertext params levelQ levelP BaseTwoDecomposition).Value.1.Value.length =
      (NewCiphertext params levelQ levelP BaseTwoDecomposition).Value.2.Value.length ∧
    (NewCiphertext params levelQ levelP BaseTwoDecomposition).LevelQ =
      (NewCiphertext params levelQ levelP BaseTwoDecomposition).Value.1.LevelQ ∧
    (NewCiphertext params levelQ levelP BaseTwoDecomposition).LevelP =
      (NewCiphertext params levelQ levelP BaseTwoDecomposition).Value.1.LevelP :=
  ⟨rfl, rfl, rfl, rfl, rfl, rfl, rfl⟩

/-- C10: `CopyNew` on a nil `*SecretKey` receiver returns nil without
dereferencing; on a non-nil receiver it returns a non-nil deep copy that
compares equal. -/
theorem C10_nil_copynew :
    SecretKey.CopyNew none = none ∧
    ∀ sk : SecretKey, SecretKey.CopyNew (some sk) = some ⟨sk.Value.CopyNew⟩ ∧
      (SecretKey.CopyNew (some sk)).isSome = true ∧
      SecretKey.Equal ⟨sk.Value.CopyNew⟩ sk = true := by
  refine ⟨rfl, ?_⟩
  intro sk
  refine ⟨rfl, rfl, ?_⟩
  simp [SecretKey.Equal, Poly.CopyNew]

/-- C9: `Matrix.CopyNew` and `Matrix.Equal` reject an element type that is
neither a built-in primitive kind nor a capability implementer at first use
(the dispatch precedes the loops, so the panic fires even on an empty
matrix); for a supported element type the rejection branch is never taken. -/
theorem C9_element_type_dispatch {T : Type} (ops : ElemOps T) :
    ((ops.isPrim = false ∧ ops.copyNewer = none) →
      ∀ m : Matrix T, Matrix.CopyNew ops m = none) ∧
    ((ops.isPrim = false ∧ ops.equatable = none) →
      ∀ m other : Matrix T, Matrix.Equal ops m other = none) ∧
    (∀ f, elemCopyF ops = some f →
      ∀ m : Matrix T, Matrix.CopyNew ops m = some (m.map (fun row => row.map f))) ∧
    (∀ eqf, elemEqF ops = some eqf →
      ∀ m other : Matrix T, Matrix.Equal ops m other = matEqLoop eqf m other) := by
  refine ⟨?_, ?_, ?_, ?_⟩
  · rintro ⟨h1, h2⟩ m
    simp [Matrix.CopyNew, elemCopyF, h1, h2]
  · rintro ⟨h1, h2⟩ m other
    simp [Matrix.Equal, elemEqF, h1, h2]
  · intro f hf m
    simp [Matrix.CopyNew, hf]
  · intro eqf hf m other
    simp [Matrix.Equal, hf]

/-- Witness for C9 at concrete element types: the unsupported `badOps` is
rejected even on the empty matrix; the primitive `u64Ops` never hits the
rejection branch. -/
theorem C9_witness :
    Matrix.CopyNew badOps ([] : Matrix Unit) = none ∧
    Matrix.Equal badOps ([] : Matrix Unit) ([] : Matrix Unit) = none ∧
    Matrix.CopyNew u64Ops ([[7]] : Matrix Nat) = some [[7]] ∧
    Matrix.Equal u64Ops ([[2]] : Matrix Nat) [[2]] =
      matEqLoop (fun a b => a == b) [[2]] [[2]] := by
  obtain ⟨hb1, hb2, _, _⟩ := C9_element_type_dispatch badOps
  obtain ⟨_, _, hu3, hu4⟩ := C9_element_type_dispatch u64Ops
  refine ⟨hb1 ⟨rfl, rfl⟩ [], hb2 ⟨rfl, rfl⟩ [] [], ?_, hu4 _ rfl [[2]] [[2]]⟩
  have := hu3 (fun t => t) rfl [[7]]
  simpa using this

/-- Counterexample for C3: `Matrix.Equal` does not compare the outer row
counts; the empty matrix compares equal to a one-row matrix. -/
theorem C3_cex :
    Matrix.Equal u64Ops ([] : Matrix Nat) [[1]] = some true ∧
    ([] : Matrix Nat).length ≠ ([[1]] : Matrix Nat).length :=
  ⟨rfl, by decide⟩

/-- C3 (amended): for a supported element type, `Matrix.Equal m other`
returns true exactly when every row of `m` (indexed from `m`) equals the
corresponding row of `other` elementwise; rows of `other` beyond `m`'s
length are ignored, so equality of the outer row counts is not enforced. -/
theorem C3_equal_characterization {T : Type} (ops : ElemOps T)
    (eqf : T → T → Bool) (heqf : elemEqF ops = some eqf) (m other : Matrix T) :
    Matrix.Equal ops m other = some true ↔
      (m.length ≤ other.length ∧
        ∀ i, i < m.length →
          vecEqual eqf (m.getD i []) (other.getD i []) = true) := by
  unfold Matrix.Equal
  rw [heqf]
  exact matEqLoop_eq_true_iff eqf m other

/-- Witness for C3 (amended) at a concrete input where the row counts
differ but `Equal` still returns true. -/
theorem C3_witness :
    Matrix.Equal u64Ops ([[2]] : Matrix Nat) [[2], [9]] = some true ∧
    ([[2]] : Matrix Nat).length ≠ ([[2], [9]] : Matrix Nat).length := by
  refine ⟨?_, by decide⟩
  refine (C3_equal_characterization u64Ops (fun a b => a == b) rfl
    [[2]] [[2], [9]]).2 ⟨by decide, ?_⟩
  intro i hi
  simp only [List.length_cons, List.length_nil] at hi
  have h0 : i = 0 := by omega
  subst h0
  decide

/-- Counterexample for C5: two streams failing at different matrix row
indices (zero rows read versus one row read) produce identical error
values, so the propagated error does not carry the failing row index. -/
theorem C5_cex :
    Matrix.ReadFrom u64Ops (u64Bytes 2) =
      (8, ([] : Matrix Nat), [], some (IOErr.vectorReadFrom IOErr.shortRead)) ∧
    Matrix.ReadFrom u64Ops (u64Bytes 2 ++ u64Bytes 0) =
      (16, [([] : List Nat)], [], some (IOErr.vectorReadFrom IOErr.shortRead)) ∧
    ([] : Matrix Nat).length ≠ [([] : List Nat)].length := by
  refine ⟨?_, ?_, by decide⟩ <;> rfl

/-- C5 (amended): every I/O failure inside `Matrix.ReadFrom`/`WriteTo` is
propagated as a typed wrapped error naming the failing component (the
row-count header codec or a row's vector codec; the closing flush failure
is returned unwrapped), never reported as success — but without a row
index. -/
theorem C5_error_propagation {T : Type} (ops : ElemOps T) :
    (∀ (r : Reader) (n : Nat) (m' : Matrix T) (r' : Reader) (e : IOErr),
      Matrix.ReadFrom ops r = (n, m', r', some e) →
        (∃ e', e = IOErr.readAsUint64 e') ∨ (∃ e', e = IOErr.vectorReadFrom e')) ∧
    (∀ (m : Matrix T) (w : BufWriter) (n : Nat) (w' : BufWriter) (e : IOErr),
      Matrix.WriteTo ops m w = (n, w', some e) →
        (∃ e', e = IOErr.writeAsUint64 e') ∨ (∃ e', e = IOErr.vectorWriteTo e') ∨
          e = IOErr.sinkFail) ∧
    (∀ r : Reader, r.length < 8 →
      Matrix.ReadFrom ops r =
        (0, [], r, some (IOErr.readAsUint64 IOErr.shortRead))) := by
  refine ⟨fun r n m' r' e h => Matrix.ReadFrom_err ops h,
    fun m w n w' e h => Matrix.WriteTo_err ops h, ?_⟩
  intro r hr
  unfold Matrix.ReadFrom readAsUint64
  rw [if_neg (by omega)]

/-- Witness for C5 (amended): a concrete short header stream is rejected
with the wrapped header-codec error. -/
theorem C5_witness :
    Matrix.ReadFrom u64Ops ([1, 2, 3] : Reader) =
      (0, ([] : Matrix Nat), [1, 2, 3], some (IOErr.readAsUint64 IOErr.shortRead)) :=
  (C5_error_propagation u64Ops).2.2 [1, 2, 3] (by decide)

/-- Counterexample for C4: a failing element write surfaces while earlier
bytes sit in the wrapping buffer; the call returns the error without
flushing, leaving the sink empty although it had ample capacity, so
buffered bytes are not flushed on the error path. -/
theorem C4_cex :
    Matrix.WriteToRaw badOps [[()]] ⟨[], 100⟩ 100 =
      (16, ⟨u64Bytes 1 ++ u64Bytes 1, 100, ⟨[], 100⟩⟩,
        some (IOErr.vectorWriteTo IOErr.elemFail)) ∧
    (u64Bytes 1 ++ u64Bytes 1 : List Nat) ≠ [] := by
  refine ⟨rfl, by decide⟩

/-- C4 (amended): a sink that is not a buffered writer is wrapped exactly
once for the single top-level call (the default branch recurses once into
the buffered branch), and on the success path the wrapper is flushed before
returning, for `Matrix.WriteTo` and for the RGSW `Ciphertext.WriteTo`; on
the error path no flush is performed. -/
theorem C4_flush_on_success {T : Type} (ops : ElemOps T) (m : Matrix T)
    (s : Sink) (c n : Nat) (w' : BufWriter) (ct : Ciphertext) (cts : Sink)
    (cc cn : Nat) (cw' : BufWriter)
    (hw : Matrix.WriteToRaw ops m s c = (n, w', none))
    (hct : ct.WriteTo ⟨[], cc, cts⟩ = (cn, cw', none)) :
    Matrix.WriteToRaw ops m s c = Matrix.WriteTo ops m ⟨[], c, s⟩ ∧
    w'.buf = [] ∧
    (∃ bs, matEncode ops m = some bs ∧ w'.sink.out = s.out ++ bs) ∧
    cw'.buf = [] ∧ cw'.sink.out = cts.out ++ ctEncode ct := by
  obtain ⟨bs, hbs, hacc, hn, hbuf⟩ := matWriteTo_acc ops hw
  obtain ⟨hacc2, hn2, hbuf2⟩ := ctWriteTo_acc hct
  have hout : w'.sink.out = s.out ++ bs := by
    have h1 : w'.acc = w'.sink.out := by
      rw [BufWriter.acc, hbuf, List.append_nil]
    rw [← h1, hacc]
    simp [BufWriter.acc]
  have hout2 : cw'.sink.out = cts.out ++ ctEncode ct := by
    have h1 : cw'.acc = cw'.sink.out := by
      rw [BufWriter.acc, hbuf2, List.append_nil]
    rw [← h1, hacc2]
    simp [BufWriter.acc]
  exact ⟨rfl, hbuf, ⟨bs, hbs, hout⟩, hbuf2, hout2⟩

/-- Witness for C4 (amended) on concrete successful writes. -/
theorem C4_witness :
    (Matrix.WriteToRaw u64Ops ([[3]] : Matrix Nat) ⟨[], 24⟩ 50).2.1.buf = [] ∧
    (Ciphertext.WriteTo ⟨(⟨[]⟩, ⟨[]⟩)⟩ ⟨[], 10, ⟨[], 16⟩⟩).2.1.buf = [] := by
  obtain ⟨_, hbuf, _, hbuf2, _⟩ :=
    C4_flush_on_success u64Ops [[3]] ⟨[], 24⟩ 50
      (Matrix.WriteToRaw u64Ops [[3]] ⟨[], 24⟩ 50).1
      (Matrix.WriteToRaw u64Ops [[3]] ⟨[], 24⟩ 50).2.1
      ⟨(⟨[]⟩, ⟨[]⟩)⟩ ⟨[], 16⟩ 10
      (Ciphertext.WriteTo ⟨(⟨[]⟩, ⟨[]⟩)⟩ ⟨[], 10, ⟨[], 16⟩⟩).1
      (Ciphertext.WriteTo ⟨(⟨[]⟩, ⟨[]⟩)⟩ ⟨[], 10, ⟨[], 16⟩⟩).2.1
      rfl rfl
  exact ⟨hbuf, hbuf2⟩

/-- C2: `Matrix.BinarySize` is the 8-byte row-count header plus the sum of
the rows' `Vector.BinarySize`; a successful `WriteTo` writes exactly
`BinarySize()` bytes (both as the reported count and as bytes delivered to
the sink); `ReadFrom` on a well-formed stream consumes exactly that many
bytes. -/
theorem C2_size_exactness {T : Type} (ops : ElemOps T) (m : Matrix T)
    (s : Sink) (c n : Nat) (w' : BufWriter)
    (hsz : ∀ v ∈ m, ∀ t ∈ v, ∀ bs', ops.write t = some bs' →
      bs'.length = ops.size t)
    (hm : m.length < 2 ^ 64) (hrows : ∀ v ∈ m, v.length < 2 ^ 64)
    (hrt : ∀ v ∈ m, ∀ t ∈ v, ∀ bs' r', ops.write t = some bs' →
      ops.read (bs' ++ r') = some (t, r'))
    (hw : Matrix.WriteToRaw ops m s c = (n, w', none)) :
    Matrix.BinarySize ops m = 8 + (m.map (Vector.BinarySize ops)).sum ∧
    n = Matrix.BinarySize ops m ∧
    w'.sink.out.length = s.out.length + Matrix.BinarySize ops m ∧
    ∀ rest, ∃ bs, matEncode ops m = some bs ∧
      Matrix.ReadFrom ops (bs ++ rest) =
        (Matrix.BinarySize ops m, m, rest, none) := by
  obtain ⟨bs, hbs, hacc, hn, hbuf⟩ := matWriteTo_acc ops hw
  have hlen : bs.length = Matrix.BinarySize ops m := matEncode_length ops hbs hsz
  have hout : w'.sink.out = s.out ++ bs := by
    have h1 : w'.acc = w'.sink.out := by
      rw [BufWriter.acc, hbuf, List.append_nil]
    rw [← h1, hacc]
    simp [BufWriter.acc]
  refine ⟨rfl, by rw [hn, hlen], by rw [hout]; simp [hlen], ?_⟩
  intro rest
  refine ⟨bs, hbs, ?_⟩
  rw [matReadFrom_encode ops rest hbs hm hrows hrt, hlen]

/-- Witness for C2 on a concrete matrix over u64 elements. -/
theorem C2_witness :
    Matrix.BinarySize u64Ops ([[3]] : Matrix Nat) = 24 ∧
    (Matrix.WriteToRaw u64Ops ([[3]] : Matrix Nat) ⟨[], 24⟩ 0).1 = 24 := by
  obtain ⟨h1, h2, h3, h4⟩ := C2_size_exactness u64Ops [[3]] ⟨[], 24⟩ 0
    (Matrix.WriteToRaw u64Ops [[3]] ⟨[], 24⟩ 0).1
    (Matrix.WriteToRaw u64Ops [[3]] ⟨[], 24⟩ 0).2.1
    u64Ops_hsz (by decide) (by decide) (u64Ops_hrt (by decide)) rfl
  have hb : Matrix.BinarySize u64Ops ([[3]] : Matrix Nat) = 24 := by decide
  exact ⟨hb, by rw [h2, hb]⟩

/-- C1: decoding via `ReadFrom` the exact byte sequence a successful
`WriteTo` produced yields a value structurally equal to the original, for
`Matrix[T]` over a supported element type, for `SecretKey` and for the RGSW
`Ciphertext`, empty containers included. -/
theorem C1_roundtrip {T : Type} (ops : ElemOps T) (eqf : T → T → Bool)
    (m : Matrix T) (s : Sink) (c n : Nat) (w' : BufWriter)
    (sk : SecretKey) (sks : Sink) (skc skn : Nat) (skw' : BufWriter)
    (ct : Ciphertext) (cts : Sink) (ctc ctn : Nat) (ctw' : BufWriter)
    (heqf : elemEqF ops = some eqf)
    (hrefl : ∀ v ∈ m, ∀ t ∈ v, eqf t t = true)
    (hm : m.length < 2 ^ 64) (hrows : ∀ v ∈ m, v.length < 2 ^ 64)
    (hrt : ∀ v ∈ m, ∀ t ∈ v, ∀ bs' r', ops.write t = some bs' →
      ops.read (bs' ++ r') = some (t, r'))
    (hskv : sk.Value.Valid) (hctv : ct.Valid)
    (hw : Matrix.WriteToRaw ops m s c = (n, w', none))
    (hwsk : sk.WriteTo ⟨[], skc, sks⟩ = (skn, skw', none))
    (hwct : ct.WriteTo ⟨[], ctc, cts⟩ = (ctn, ctw', none)) :
    (∃ bs, w'.sink.out = s.out ++ bs ∧
      (∀ rest, Matrix.ReadFrom ops (bs ++ rest) = (bs.length, m, rest, none)) ∧
      Matrix.Equal ops m m = some true) ∧
    (skw'.sink.out = sks.out ++ polyEncode sk.Value ∧
      (∀ rest, SecretKey.ReadFrom (polyEncode sk.Value ++ rest) =
        ((polyEncode sk.Value).length, sk, rest, none)) ∧
      SecretKey.Equal sk sk = true) ∧
    (ctw'.sink.out = cts.out ++ ctEncode ct ∧
      (∀ rest, Ciphertext.ReadFrom (ctEncode ct ++ rest) =
        ((ctEncode ct).length, ct, rest, none)) ∧
      Ciphertext.Equal ct ct = true) := by
  obtain ⟨bs, hbs, hacc, hn, hbuf⟩ := matWriteTo_acc ops hw
  have hout : w'.sink.out = s.out ++ bs := by
    have h1 : w'.acc = w'.sink.out := by
      rw [BufWriter.acc, hbuf, List.append_nil]
    rw [← h1, hacc]
    simp [BufWriter.acc]
  obtain ⟨hskacc, hskn, hskbuf⟩ := polyWriteTo_acc hwsk
  have hskout : skw'.sink.out = sks.out ++ polyEncode sk.Value := by
    have h1 : skw'.acc = skw'.sink.out := by
      rw [BufWriter.acc, hskbuf, List.append_nil]
    rw [← h1, hskacc]
    simp [BufWriter.acc]
  obtain ⟨hctacc, hctn, hctbuf⟩ := ctWriteTo_acc hwct
  have hctout : ctw'.sink.out = cts.out ++ ctEncode ct := by
    have h1 : ctw'.acc = ctw'.sink.out := by
      rw [BufWriter.acc, hctbuf, List.append_nil]
    rw [← h1, hctacc]
    simp [BufWriter.acc]
  refine ⟨⟨bs, hout, ?_, ?_⟩, ⟨hskout, ?_, ?_⟩, ⟨hctout, ?_, ?_⟩⟩
  · intro rest
    exact matReadFrom_encode ops rest hbs hm hrows hrt
  · unfold Matrix.Equal
    rw [heqf]
    exact matEqLoop_refl eqf m hrefl
  · intro rest
    unfold SecretKey.ReadFrom
    rw [polyReadFrom_encode hskv rest]
  · simp [SecretKey.Equal]
  · intro rest
    exact ctReadFrom_encode hctv rest
  · simp [Ciphertext.Equal]

/-- Validity of the concrete one-coefficient secret key element. -/
theorem polyValid_example : Poly.Valid ⟨[[1]], none⟩ := by
  refine ⟨⟨by norm_num, ?_⟩, ?_⟩
  · intro v hv
    simp only [List.mem_singleton] at hv
    subst hv
    exact ⟨by norm_num, by intro x hx; simp only [List.mem_singleton] at hx; omega⟩
  · intro pp h
    exact Option.noConfusion h

/-- Validity of the empty gadget ciphertext. -/
theorem gctValid_empty : GadgetCiphertext.Valid ⟨[]⟩ :=
  ⟨by norm_num, by simp, by simp⟩

/-- Witness for C1 on concrete values, with the empty matrix and empty
gadget halves exercising the empty-container case. -/
theorem C1_witness :
    Matrix.Equal u64Ops ([] : Matrix Nat) ([] : Matrix Nat) = some true ∧
    SecretKey.ReadFrom (polyEncode ⟨[[1]], none⟩ ++ []) =
      ((polyEncode ⟨[[1]], none⟩).length, ⟨⟨[[1]], none⟩⟩, [], none) ∧
    Ciphertext.ReadFrom (ctEncode ⟨(⟨[]⟩, ⟨[]⟩)⟩ ++ []) =
      ((ctEncode ⟨(⟨[]⟩, ⟨[]⟩)⟩).length, ⟨(⟨[]⟩, ⟨[]⟩)⟩, [], none) ∧
    Ciphertext.Equal ⟨(⟨[]⟩, ⟨[]⟩)⟩ ⟨(⟨[]⟩, ⟨[]⟩)⟩ = true := by
  obtain ⟨⟨bs, hout, hread, heq⟩, ⟨hsko, hskr, hske⟩, ⟨hcto, hctr, hcte⟩⟩ :=
    C1_roundtrip u64Ops (fun a b => a == b) [] ⟨[], 8⟩ 0
      (Matrix.WriteToRaw u64Ops [] ⟨[], 8⟩ 0).1
      (Matrix.WriteToRaw u64Ops [] ⟨[], 8⟩ 0).2.1
      ⟨⟨[[1]], none⟩⟩ ⟨[], 32⟩ 0
      (SecretKey.WriteTo ⟨⟨[[1]], none⟩⟩ ⟨[], 0, ⟨[], 32⟩⟩).1
      (SecretKey.WriteTo ⟨⟨[[1]], none⟩⟩ ⟨[], 0, ⟨[], 32⟩⟩).2.1
      ⟨(⟨[]⟩, ⟨[]⟩)⟩ ⟨[], 16⟩ 0
      (Ciphertext.WriteTo ⟨(⟨[]⟩, ⟨[]⟩)⟩ ⟨[], 0, ⟨[], 16⟩⟩).1
      (Ciphertext.WriteTo ⟨(⟨[]⟩, ⟨[]⟩)⟩ ⟨[], 0, ⟨[], 16⟩⟩).2.1
      rfl (by decide) (by decide) (by decide) (u64Ops_hrt (by decide))
      polyValid_example ⟨gctValid_empty, gctValid_empty⟩
      rfl rfl rfl
  exact ⟨heq, hskr [], hctr [], hcte⟩

/-- Success of `Ciphertext.WriteTo` on an unbuffered writer with enough
sink capacity for both halves. -/
theorem ctWriteTo_zero (ct : Ciphertext) (s : Sink)
    (hcap : (ctEncode ct).length ≤ s.cap) :
    Ciphertext.WriteTo ct ⟨[], 0, s⟩ =
      ((ctEncode ct).length,
        ⟨[], 0, ⟨s.out ++ ctEncode ct, s.cap - (ctEncode ct).length⟩⟩, none) := by
  have henc0 : matEncode pairOps ct.Value.1.Value = some (gctEncode ct.Value.1) :=
    matEncode_eq_matEncodeB pairOps ct.Value.1.Value
      (fun v _ t _ => pairOps_write_total t)
  have henc1 : matEncode pairOps ct.Value.2.Value = some (gctEncode ct.Value.2) :=
    matEncode_eq_matEncodeB pairOps ct.Value.2.Value
      (fun v _ t _ => pairOps_write_total t)
  have hlen : (ctEncode ct).length =
      (gctEncode ct.Value.1).length + (gctEncode ct.Value.2).length := by
    simp [ctEncode]
  have hcap0 : (gctEncode ct.Value.1).length ≤ s.cap := by omega
  have hcap1 : (gctEncode ct.Value.2).length ≤
      s.cap - (gctEncode ct.Value.1).length := by omega
  unfold Ciphertext.WriteTo GadgetCiphertext.WriteTo
  rw [matWriteTo_zero pairOps s henc0 hcap0]
  simp only
  rw [matWriteTo_zero pairOps _ henc1 hcap1]
  simp only [ctEncode, List.length_append, List.append_assoc]
  have hc2 : s.cap - (gctEncode ct.Value.1).length - (gctEncode ct.Value.2).length =
      s.cap - ((gctEncode ct.Value.1).length + (gctEncode ct.Value.2).length) := by
    omega
  rw [hc2]

/-- C7: `MarshalBinary` allocates exactly `BinarySize()` bytes and fills
them with exactly the bytes `WriteTo` produces, and `UnmarshalBinary`
decodes identically to `ReadFrom` on the same bytes, for `Matrix[T]`,
`SecretKey` and the RGSW `Ciphertext`. -/
theorem C7_marshal_wrappers {T : Type} (ops : ElemOps T) (m : Matrix T)
    (sk : SecretKey) (ct : Ciphertext)
    (hsz : ∀ v ∈ m, ∀ t ∈ v, ∀ bs', ops.write t = some bs' →
      bs'.length = ops.size t)
    (htot : ∀ v ∈ m, ∀ t ∈ v, (ops.write t).isSome) :
    (Matrix.MarshalBinary ops m = (matEncodeB ops m, none) ∧
      (matEncodeB ops m).length = Matrix.BinarySize ops m ∧
      (∀ (s : Sink) (c n : Nat) (w' : BufWriter),
        Matrix.WriteToRaw ops m s c = (n, w', none) →
          w'.sink.out = s.out ++ matEncodeB ops m) ∧
      (∀ p : List Nat, Matrix.UnmarshalBinary ops p =
        ((Matrix.ReadFrom ops p).2.1, (Matrix.ReadFrom ops p).2.2.2))) ∧
    (SecretKey.MarshalBinary sk = (polyEncode sk.Value, none) ∧
      (polyEncode sk.Value).length = sk.BinarySize ∧
      (∀ (sks : Sink) (skc skn : Nat) (skw' : BufWriter),
        sk.WriteTo ⟨[], skc, sks⟩ = (skn, skw', none) →
          skw'.sink.out = sks.out ++ polyEncode sk.Value) ∧
      (∀ p : List Nat, SecretKey.UnmarshalBinary p =
        ((SecretKey.ReadFrom p).2.1, (SecretKey.ReadFrom p).2.2.2))) ∧
    (Ciphertext.MarshalBinary ct = (ctEncode ct, none) ∧
      (ctEncode ct).length = ct.BinarySize ∧
      (∀ (cts : Sink) (cc cn : Nat) (cw' : BufWriter),
        ct.WriteTo ⟨[], cc, cts⟩ = (cn, cw', none) →
          cw'.sink.out = cts.out ++ ctEncode ct) ∧
      (∀ p : List Nat, Ciphertext.UnmarshalBinary p =
        ((Ciphertext.ReadFrom p).2.1, (Ciphertext.ReadFrom p).2.2.2))) := by
  have henc : matEncode ops m = some (matEncodeB ops m) :=
    matEncode_eq_matEncodeB ops m htot
  have hlen : (matEncodeB ops m).length = Matrix.BinarySize ops m :=
    matEncode_length ops henc hsz
  refine ⟨⟨?_, hlen, ?_, ?_⟩, ⟨rfl, rfl, ?_, ?_⟩, ⟨?_, ctEncode_length ct, ?_, ?_⟩⟩
  · unfold Matrix.MarshalBinary
    rw [matWriteTo_zero ops ⟨[], Matrix.BinarySize ops m⟩ henc (by rw [hlen])]
    simp [BufWriter.acc]
  · intro s c n w' hw
    obtain ⟨bs, hbs, hacc, hn, hbuf⟩ := matWriteTo_acc ops hw
    have hbsB : bs = matEncodeB ops m := by
      rw [henc] at hbs
      exact (Option.some.inj hbs).symm
    have h1 : w'.acc = w'.sink.out := by
      rw [BufWriter.acc, hbuf, List.append_nil]
    rw [← h1, hacc, hbsB]
    simp [BufWriter.acc]
  · intro p
    unfold Matrix.UnmarshalBinary
    rfl
  · intro sks skc skn skw' hw
    obtain ⟨hacc, hn, hbuf⟩ := polyWriteTo_acc hw
    have h1 : skw'.acc = skw'.sink.out := by
      rw [BufWriter.acc, hbuf, List.append_nil]
    rw [← h1, hacc]
    simp [BufWriter.acc]
  · intro p
    unfold SecretKey.UnmarshalBinary
    rfl
  · unfold Ciphertext.MarshalBinary
    rw [ctWriteTo_zero ct ⟨[], ct.BinarySize⟩ (by rw [ctEncode_length])]
    simp [BufWriter.acc]
  · intro cts cc cn cw' hw
    obtain ⟨hacc, hn, hbuf⟩ := ctWriteTo_acc hw
    have h1 : cw'.acc = cw'.sink.out := by
      rw [BufWriter.acc, hbuf, List.append_nil]
    rw [← h1, hacc]
    simp [BufWriter.acc]
  · intro p
    unfold Ciphertext.UnmarshalBinary
    rfl

/-- Witness for C7 on concrete values. -/
theorem C7_witness :
    Matrix.MarshalBinary u64Ops ([[3]] : Matrix Nat) =
      (matEncodeB u64Ops [[3]], none) ∧
    SecretKey.MarshalBinary ⟨⟨[[1]], none⟩⟩ = (polyEncode ⟨[[1]], none⟩, none) ∧
    Ciphertext.MarshalBinary ⟨(⟨[]⟩, ⟨[]⟩)⟩ = (ctEncode ⟨(⟨[]⟩, ⟨[]⟩)⟩, none) := by
  obtain ⟨⟨hm, _, _, _⟩, ⟨hsk, _, _, _⟩, ⟨hct, _, _, _⟩⟩ :=
    C7_marshal_wrappers u64Ops [[3]] ⟨⟨[[1]], none⟩⟩ ⟨(⟨[]⟩, ⟨[]⟩)⟩
      u64Ops_hsz (fun v _ t _ => u64Ops_write_total t)
  exact ⟨hm, hsk, hct⟩

/-- C8: `y := x.CopyNew()` satisfies `y.Equal(x)` immediately, the copy's
storage is disjoint from the original's (all row addresses are fresh), and
mutating any row of `y` leaves `x`'s encoding (`MarshalBinary` output)
unchanged; the `SecretKey` copy also compares equal immediately. -/
theorem C8_copy_independence {T : Type} (ops : ElemOps T) (eqf : T → T → Bool)
    (g : T → T) (h : Heap T) (ml : HMatrix)
    (heqf : elemEqF ops = some eqf) (hg : elemCopyF ops = some g)
    (hge : ∀ a ∈ ml, ∀ t ∈ h.derefRow a, eqf (g t) t = true)
    (hval : ∀ a ∈ ml, a < h.rows.length) :
    (∃ (h2 : Heap T) (yl : HMatrix),
      Matrix.CopyNewH ops h ml = some (h2, yl) ∧
      Matrix.Equal ops (h2.deref yl) (h2.deref ml) = some true ∧
      h2.deref ml = h.deref ml ∧
      (∀ a ∈ yl, h.rows.length ≤ a) ∧
      (∀ a ∈ yl, ∀ v, Matrix.MarshalBinary ops ((h2.setRow a v).deref ml) =
        Matrix.MarshalBinary ops (h2.deref ml))) ∧
    (∀ sk : SecretKey, SecretKey.CopyNew (some sk) = some ⟨sk.Value.CopyNew⟩ ∧
      SecretKey.Equal ⟨sk.Value.CopyNew⟩ sk = true) := by
  obtain ⟨h2, yl, extra, hcr, hrows, hge2, hderef⟩ :=
    copyRowsH_spec (fun row => row.map g) ml h hval
  have hml : h2.deref ml = h.deref ml := by
    unfold Heap.deref
    refine List.map_congr_left ?_
    intro a ha
    show h2.derefRow a = h.derefRow a
    unfold Heap.derefRow
    rw [hrows]
    exact List.getD_append _ _ _ _ (hval a ha)
  refine ⟨⟨h2, yl, ?_, ?_, hml, hge2, ?_⟩, ?_⟩
  · simp only [Matrix.CopyNewH, hg]
    rw [hcr]
  · unfold Matrix.Equal
    rw [heqf, hderef, hml]
    have hmap : (h.deref ml).map (fun row => row.map g) =
        (h.deref ml).map (List.map g) := rfl
    refine matEqLoop_map eqf g (h.deref ml) ?_
    intro v hv t ht
    obtain ⟨a, ha, hva⟩ := List.mem_map.mp hv
    exact hge a ha t (by rw [hva]; exact ht)
  · intro a ha v
    have hne : ∀ a2 ∈ ml, a2 ≠ a := by
      intro a2 ha2
      have h1 := hval a2 ha2
      have h2a := hge2 a ha
      omega
    rw [Heap.deref_setRow h2 hne v]
  · intro sk
    exact ⟨rfl, by simp [SecretKey.Equal, Poly.CopyNew]⟩

/-- Witness for C8 on a concrete heap: copying `[[5]]` allocates a fresh
row and the secret-key copy compares equal. -/
theorem C8_witness :
    (Matrix.CopyNewH u64Ops ⟨[[5]]⟩ [0]).isSome = true ∧
    SecretKey.CopyNew (some ⟨⟨[[2]], none⟩⟩) = some ⟨⟨[[2]], none⟩⟩ ∧
    SecretKey.Equal ⟨⟨[[2]], none⟩⟩ ⟨⟨[[2]], none⟩⟩ = true := by
  obtain ⟨⟨h2, yl, hcopy, _, _, _, _⟩, hsk⟩ :=
    C8_copy_independence u64Ops (fun a b => a == b) (fun t => t) ⟨[[5]]⟩ [0]
      rfl rfl (by decide) (by decide)
  refine ⟨by rw [hcopy]; rfl, ?_, ?_⟩
  · exact (hsk ⟨⟨[[2]], none⟩⟩).1
  · exact (hsk ⟨⟨[[2]], none⟩⟩).2

end LattigoSpec
